import Mathlib

/-!
# Verification of the convex-hull core (gift wrapping / Jarvis march)

Shallow embedding of the repository's hull-computation core:

* `src/lib/convexHull.ts` — both observed versions of the module: the first
  one with a local `giftWrap` hull computer (candidate replaced when the
  cross product is negative), the second one delegating to `jarvisMarch`
  (candidate replaced when the cross product is positive).  Shared helpers
  (`crossProduct`, `removeDuplicates`, `areCollinear`, `getSegmentEndpoints`,
  `getHullType`) are textually identical in the two versions and are defined
  once.  The orchestrator of the first version is `convexHull`, the one of
  the second version is `convexHullJM`.
* `src/lib/algorithm/jarvisMarch.ts` — `jarvisMarch`.
* `src/lib/algorithm/jarvisMarchSteps.ts` — `jarvisMarchWithSteps`.

Coordinates are modelled as integers: the TypeScript code performs only
ring operations (`+`, `-`, `*`, `**2`) and exact comparisons on the
coordinates, so over integer-valued inputs (the inputs of every concrete
example in the specification) the JavaScript number semantics coincide with
exact integer arithmetic.

The `do … while` wrapping loops are modelled with explicit fuel
(`wrapLoop`, `jmsLoop`); fuel equal to the number of points is what the
source's `hull.length < n` safety bound guarantees, and the fuel-stability
theorem for claim C8 shows the result does not depend on the exact amount
of fuel once it is at least the input size.
-/

namespace Hull

@[ext]
structure Point where
  x : Int
  y : Int
deriving DecidableEq, Repr

/-- `Point, HullResult` category tag from `types.ts`. -/
inductive HullType where
  | point
  | segment
  | triangle
  | quadrilateral
deriving DecidableEq, Repr

structure HullResult where
  type : HullType
  vertices : List Point
deriving DecidableEq, Repr

/-- Cross product of vectors OA and OB (`crossProduct` in the source). -/
def crossProduct (o a b : Point) : Int :=
  (a.x - o.x) * (b.y - o.y) - (a.y - o.y) * (b.x - o.x)

/-- `pointsEqual` from `convexHull.ts`. -/
def pointsEqual (a b : Point) : Bool :=
  a.x == b.x && a.y == b.y

/-- `removeDuplicates` from `convexHull.ts`: keep the first occurrence of
each point, in input order. -/
def removeDuplicates (points : List Point) : List Point :=
  points.foldl
    (fun unique p => if unique.any (fun u => pointsEqual u p) then unique else unique ++ [p])
    []

/-- `areCollinear` from `convexHull.ts`: all cross products against the
first two points vanish (vacuously true below three points). -/
def areCollinear (points : List Point) : Bool :=
  match points with
  | p0 :: p1 :: rest => rest.all (fun p => crossProduct p0 p1 p == 0)
  | _ => true

/-- `distanceSquared` from `jarvisMarch.ts`; the same expression is written
inline in `convexHull.ts`. -/
def distanceSquared (a b : Point) : Int :=
  (a.x - b.x) ^ 2 + (a.y - b.y) ^ 2

/-- The ordered list of index pairs `i < j` visited by the double loop of
`getSegmentEndpoints`, as the corresponding point pairs. -/
def allPairs : List Point → List (Point × Point)
  | [] => []
  | p :: rest => (rest.map (fun q => (p, q))) ++ allPairs rest

/-- One step of `getSegmentEndpoints`'s scan: replace the best pair when
the squared distance strictly exceeds the running maximum. -/
def segStep (acc : Int × Point × Point) (pr : Point × Point) : Int × Point × Point :=
  if distanceSquared pr.1 pr.2 > acc.1 then (distanceSquared pr.1 pr.2, pr.1, pr.2) else acc

/-- `getSegmentEndpoints` from `convexHull.ts`: farthest pair, returned
with the lower-y (then lower-x) point first. -/
def getSegmentEndpoints (points : List Point) : List Point :=
  match points with
  | [] => []
  | [p] => [p]
  | p0 :: _ :: _ =>
    let r := (allPairs points).foldl segStep (-1, p0, p0)
    let p1 := r.2.1
    let p2 := r.2.2
    if p1.y < p2.y || (p1.y == p2.y && p1.x < p2.x) then [p1, p2] else [p2, p1]

/-- `getHullType` from `convexHull.ts`. -/
def getHullType (vertexCount : Nat) : HullType :=
  match vertexCount with
  | 1 => HullType.point
  | 2 => HullType.segment
  | 3 => HullType.triangle
  | _ => HullType.quadrilateral

/-- Total list indexing standing for the JavaScript `points[i]` accesses
(all of which are in range in the source). -/
def pget (pts : List Point) (i : Nat) : Point :=
  pts.getD i ⟨0, 0⟩

/-- Body of the start-selection loop: take index `i` when its point is
lower (or equally low and further left) than the current best. -/
def startStep (pts : List Point) (s i : Nat) : Nat :=
  if (pget pts i).y < (pget pts s).y ||
      ((pget pts i).y == (pget pts s).y && (pget pts i).x < (pget pts s).x)
    then i else s

/-- The start-selection loop shared by `giftWrap`, `jarvisMarch` and
`jarvisMarchWithSteps`: index of the first point with lowest y,
ties broken by lowest x. -/
def startIndexOf (pts : List Point) : Nat :=
  (List.range' 1 (pts.length - 1)).foldl (startStep pts) 0

/-- Body of `giftWrap`'s candidate scan (`convexHull.ts`, first version):
the candidate is replaced when the cross product is negative, or when it is
zero and the probe is strictly farther from the current point. -/
def gwStep (pts : List Point) (current : Nat) (next i : Nat) : Nat :=
  if next = current then i
  else
    let cross := crossProduct (pget pts current) (pget pts next) (pget pts i)
    if cross < 0 then i
    else if cross = 0 then
      if distanceSquared (pget pts current) (pget pts i) >
          distanceSquared (pget pts current) (pget pts next) then i else next
    else next

/-- `giftWrap`'s inner `for` loop over `i = 1 … n-1`. -/
def gwSelect (pts : List Point) (current : Nat) : Nat :=
  (List.range' 1 (pts.length - 1)).foldl (gwStep pts current) 0

/-- Body of `jarvisMarch`'s candidate scan (`jarvisMarch.ts`): the current
index is skipped, and the candidate is replaced when the cross product is
positive, or when it is zero and the probe is strictly farther. -/
def jmStep (pts : List Point) (current : Nat) (next i : Nat) : Nat :=
  if i = current then next
  else if next = current then i
  else
    let cross := crossProduct (pget pts current) (pget pts next) (pget pts i)
    if cross > 0 then i
    else if cross = 0 then
      if distanceSquared (pget pts current) (pget pts i) >
          distanceSquared (pget pts current) (pget pts next) then i else next
    else next

/-- `jarvisMarch`'s inner `for` loop over `i = 0 … n-1`. -/
def jmSelect (pts : List Point) (current : Nat) : Nat :=
  (List.range pts.length).foldl (jmStep pts current) 0

/-- The `do … while` wrapping loop shared (up to the candidate scan `sel`)
by `giftWrap` and `jarvisMarch`: push the current point, select the next
one, and continue while it differs from the start and the hull is shorter
than the input.  `fuel` bounds the number of iterations; the loops run with
`fuel = pts.length`, which the `hull.length < n` guard never exhausts. -/
def wrapLoop (pts : List Point) (sel : List Point → Nat → Nat) (start : Nat) :
    Nat → Nat → List Point → List Point
  | 0, _, hull => hull
  | fuel + 1, current, hull =>
    let hull' := hull ++ [pget pts current]
    let next := sel pts current
    if next ≠ start ∧ hull'.length < pts.length then
      wrapLoop pts sel start fuel next hull'
    else hull'

/-- `giftWrap` from `convexHull.ts` (first version). -/
def giftWrap (points : List Point) : List Point :=
  if points.length < 3 then points
  else wrapLoop points gwSelect (startIndexOf points) points.length (startIndexOf points) []

/-- `jarvisMarch` from `jarvisMarch.ts`. -/
def jarvisMarch (points : List Point) : List Point :=
  if points.length < 3 then points
  else wrapLoop points jmSelect (startIndexOf points) points.length (startIndexOf points) []

/-- `convexHull` from `convexHull.ts`, first version (hull computed by the
local `giftWrap`). -/
def convexHull (points : List Point) : HullResult :=
  let unique := removeDuplicates points
  if unique.length = 0 then ⟨HullType.point, []⟩
  else if unique.length = 1 then ⟨HullType.point, unique⟩
  else if unique.length = 2 then ⟨HullType.segment, getSegmentEndpoints unique⟩
  else if areCollinear unique then ⟨HullType.segment, getSegmentEndpoints unique⟩
  else
    let hull := giftWrap unique
    ⟨getHullType hull.length, hull⟩

/-- `convexHull` from `convexHull.ts`, second version (hull computed by
`jarvisMarch` imported from `algorithm/jarvisMarch.ts`). -/
def convexHullJM (points : List Point) : HullResult :=
  let unique := removeDuplicates points
  if unique.length = 0 then ⟨HullType.point, []⟩
  else if unique.length = 1 then ⟨HullType.point, unique⟩
  else if unique.length = 2 then ⟨HullType.segment, getSegmentEndpoints unique⟩
  else if areCollinear unique then ⟨HullType.segment, getSegmentEndpoints unique⟩
  else
    let hull := jarvisMarch unique
    ⟨getHullType hull.length, hull⟩

/-- Step kind of `AlgorithmStep` from `types.ts`. -/
inductive StepType where
  | start
  | checking
  | found
  | complete
deriving DecidableEq, Repr

/-- `AlgorithmStep` from `types.ts`. -/
structure AlgorithmStep where
  type : StepType
  description : String
  currentPoint : Option Point
  candidatePoint : Option Point
  checkingPoint : Option Point
  hullSoFar : List Point
  highlightLine : Option (Point × Point)
deriving DecidableEq, Repr

/-- The `P${i + 1}` labels used throughout the tracer's narration. -/
def pname (i : Nat) : String :=
  "P" ++ toString (i + 1)

/-- The `checking` step emitted before every comparison of the tracer's
probe loop. -/
def jmsCompareStep (pts : List Point) (current next i : Nat) (hull : List Point) :
    AlgorithmStep :=
  ⟨StepType.checking,
    "From " ++ pname current ++ ": comparing candidate " ++ pname next ++
      " against " ++ pname i,
    some (pget pts current), some (pget pts next), some (pget pts i), hull,
    some (pget pts current, pget pts i)⟩

/-- The `found` step emitted when probe `i` replaces candidate `next`
because it is more counterclockwise. -/
def jmsNewCandStep (pts : List Point) (current next i : Nat) (hull : List Point) :
    AlgorithmStep :=
  ⟨StepType.found,
    pname i ++ " is more counterclockwise than " ++ pname next ++ " - " ++
      pname i ++ " is new candidate!",
    some (pget pts current), some (pget pts i), some (pget pts i), hull,
    some (pget pts current, pget pts i)⟩

/-- The `found` step emitted when probe `i` replaces a collinear but nearer
candidate `next`. -/
def jmsCollinearFartherStep (pts : List Point) (current next i : Nat) (hull : List Point) :
    AlgorithmStep :=
  ⟨StepType.found,
    pname i ++ " is collinear with " ++ pname next ++ " but farther - " ++
      pname i ++ " is new candidate!",
    some (pget pts current), some (pget pts i), some (pget pts i), hull,
    some (pget pts current, pget pts i)⟩

/-- The `checking` step emitted when a collinear probe `i` is closer than
the kept candidate `next`. -/
def jmsCollinearCloserStep (pts : List Point) (current next i : Nat) (hull : List Point) :
    AlgorithmStep :=
  ⟨StepType.checking,
    pname i ++ " is collinear with " ++ pname next ++ " but closer - keeping " ++
      pname next,
    some (pget pts current), some (pget pts next), some (pget pts i), hull,
    some (pget pts current, pget pts next)⟩

/-- The `checking` step emitted when probe `i` is more clockwise than the
kept candidate `next`. -/
def jmsClockwiseStep (pts : List Point) (current next i : Nat) (hull : List Point) :
    AlgorithmStep :=
  ⟨StepType.checking,
    pname i ++ " is more clockwise than " ++ pname next ++ " - keeping " ++ pname next,
    some (pget pts current), some (pget pts next), some (pget pts i), hull,
    some (pget pts current, pget pts next)⟩

/-- The inner probe loop of `jarvisMarchWithSteps`: one fold step over the
probe index `i`, threading the candidate index and the emitted steps. -/
def jmsInner (pts : List Point) (current : Nat) (hull : List Point) :
    Nat × List AlgorithmStep → Nat → Nat × List AlgorithmStep
  | (next, steps), i =>
    if i = current ∨ i = next then (next, steps)
    else
      let cross := crossProduct (pget pts current) (pget pts next) (pget pts i)
      if cross > 0 then
        (i, steps ++ [jmsCompareStep pts current next i hull,
          jmsNewCandStep pts current next i hull])
      else if cross = 0 then
        if distanceSquared (pget pts current) (pget pts i) >
            distanceSquared (pget pts current) (pget pts next) then
          (i, steps ++ [jmsCompareStep pts current next i hull,
            jmsCollinearFartherStep pts current next i hull])
        else
          (next, steps ++ [jmsCompareStep pts current next i hull,
            jmsCollinearCloserStep pts current next i hull])
      else
        (next, steps ++ [jmsCompareStep pts current next i hull,
          jmsClockwiseStep pts current next i hull])

/-- The `points.map((_, i) => P(i+1)).join(arrow)` narration of the probe
order. -/
def arrayOrderString (n : Nat) : String :=
  String.intercalate "→" ((List.range n).map pname)

/-- The `found` step emitted when a vertex is committed to the hull. -/
def jmsAddStep (pts : List Point) (current : Nat) (hull : List Point) (isFirst : Bool) :
    AlgorithmStep :=
  ⟨StepType.found,
    "Added " ++ pname current ++ " to hull " ++
      (if isFirst then "(starting point - has lowest Y coordinate)"
        else "(most counterclockwise from previous point)"),
    some (pget pts current), none, none, hull, none⟩

/-- The `checking` step announcing the initial candidate
`(current + 1) % n`. -/
def jmsPickStep (pts : List Point) (current : Nat) (hull : List Point) : AlgorithmStep :=
  ⟨StepType.checking,
    "From " ++ pname current ++ ": picking " ++ pname ((current + 1) % pts.length) ++
      " as initial candidate (next in array: " ++ arrayOrderString pts.length ++ ")",
    some (pget pts current), some (pget pts ((current + 1) % pts.length)), none, hull,
    some (pget pts current, pget pts ((current + 1) % pts.length))⟩

/-- The fuel-modelled `do … while` loop of `jarvisMarchWithSteps`,
returning the accumulated hull and the emitted steps. -/
def jmsLoop (pts : List Point) (start : Nat) :
    Nat → Nat → List Point → Bool → List AlgorithmStep → List Point × List AlgorithmStep
  | 0, _, hull, _, steps => (hull, steps)
  | fuel + 1, current, hull, isFirst, steps =>
    let hull' := hull ++ [pget pts current]
    let scan := (List.range pts.length).foldl (jmsInner pts current hull')
      ((current + 1) % pts.length, [])
    let steps' := steps ++ [jmsAddStep pts current hull' isFirst,
      jmsPickStep pts current hull'] ++ scan.2
    if scan.1 ≠ start ∧ hull'.length < pts.length then
      jmsLoop pts start fuel scan.1 hull' false steps'
    else (hull', steps')

/-- The `hullTypes[hull.length] || hull.length-gon` narration of the final
`complete` step. -/
def hullTypeName (n : Nat) : String :=
  match n with
  | 1 => "Point"
  | 2 => "Segment"
  | 3 => "Triangle"
  | 4 => "Quadrilateral"
  | _ => toString n ++ "-gon"

/-- `jarvisMarchWithSteps` from `jarvisMarchSteps.ts`. -/
def jarvisMarchWithSteps (points : List Point) : List AlgorithmStep :=
  if points.length < 3 then
    [⟨StepType.complete, "Not enough points for convex hull",
      none, none, none, points, none⟩]
  else
    let startIndex := startIndexOf points
    let startStep : AlgorithmStep :=
      ⟨StepType.start,
        "Starting point found: lowest Y coordinate (" ++ pname startIndex ++ ")",
        some (pget points startIndex), none, none, [], none⟩
    let r := jmsLoop points startIndex points.length startIndex [] true []
    let completeStep : AlgorithmStep :=
      ⟨StepType.complete,
        "Convex hull complete: " ++ hullTypeName r.1.length ++ " with " ++
          toString r.1.length ++ " vertices",
        none, none, none, r.1, none⟩
    [startStep] ++ r.2 ++ [completeStep]

/-! ## Claim C1

The specification asserts counter-clockwise traversal with non-negative
consecutive-triple cross products for every hull of three or more vertices,
and `jarvisMarch.ts` itself documents its result as counter-clockwise.  The
`jarvisMarch` candidate rule (`cross > 0` replaces the candidate) instead
produces clockwise hulls: on the square below, the `jarvisMarch`-based
`convexHull` returns the vertices in clockwise order and the first
consecutive triple has a negative cross product, while the
`giftWrap`-based version returns the counter-clockwise order. -/

/-- C1: on the axis-aligned square `[(0,0),(2,0),(2,2),(0,2)]`, the
`jarvisMarch`-based `convexHull` returns the hull in clockwise order with a
negative consecutive-triple cross product, contradicting the CCW invariant
claimed by the spec and by the code's own documentation; the
`giftWrap`-based version is counter-clockwise on the same input. -/
theorem C1_jarvisMarch_clockwise :
    convexHullJM [⟨0,0⟩, ⟨2,0⟩, ⟨2,2⟩, ⟨0,2⟩] =
      ⟨HullType.quadrilateral, [⟨0,0⟩, ⟨0,2⟩, ⟨2,2⟩, ⟨2,0⟩]⟩ ∧
    crossProduct ⟨0,0⟩ ⟨0,2⟩ ⟨2,2⟩ < 0 ∧
    convexHull [⟨0,0⟩, ⟨2,0⟩, ⟨2,2⟩, ⟨0,2⟩] =
      ⟨HullType.quadrilateral, [⟨0,0⟩, ⟨2,0⟩, ⟨2,2⟩, ⟨0,2⟩]⟩ ∧
    crossProduct ⟨0,0⟩ ⟨2,0⟩ ⟨2,2⟩ > 0 := by
  decide

/-! ## Claim C3

On a deduplicated, non-collinear three-point input the two hull computers
disagree: `giftWrap` (candidate replaced on `cross < 0`) traverses
counter-clockwise, `jarvisMarch` (candidate replaced on `cross > 0`)
traverses clockwise, so the sequences differ beyond the shared start
vertex. -/

/-- C3: the input `[(0,0),(1,0),(0,1)]` is deduplicated, non-collinear and
of length 3, yet `giftWrap` and `jarvisMarch` return different vertex
sequences (the same set in opposite orientations). -/
theorem C3_giftWrap_jarvisMarch_disagree :
    ([⟨0,0⟩, ⟨1,0⟩, ⟨0,1⟩] : List Point).Nodup ∧
    areCollinear [⟨0,0⟩, ⟨1,0⟩, ⟨0,1⟩] = false ∧
    3 ≤ ([⟨0,0⟩, ⟨1,0⟩, ⟨0,1⟩] : List Point).length ∧
    giftWrap [⟨0,0⟩, ⟨1,0⟩, ⟨0,1⟩] = [⟨0,0⟩, ⟨1,0⟩, ⟨0,1⟩] ∧
    jarvisMarch [⟨0,0⟩, ⟨1,0⟩, ⟨0,1⟩] = [⟨0,0⟩, ⟨0,1⟩, ⟨1,0⟩] ∧
    giftWrap [⟨0,0⟩, ⟨1,0⟩, ⟨0,1⟩] ≠ jarvisMarch [⟨0,0⟩, ⟨1,0⟩, ⟨0,1⟩] := by
  decide

/-! ## Claim C2

The final `complete` step of the tracer records the clockwise hull produced
by the `cross > 0` candidate rule, while `convexHull` (first version,
`giftWrap`) returns the counter-clockwise order, so the trace's final hull
does not equal `convexHull`'s vertices; moreover, for an input of fewer
than three points the tracer records the raw input (duplicates included)
while `convexHull` deduplicates. -/

/-- C2: on `[(0,0),(3,0),(0,3)]` the last step of `jarvisMarchWithSteps`
is `complete` but records the hull `[(0,0),(0,3),(3,0)]`, which differs
from `convexHull`'s vertices `[(0,0),(3,0),(0,3)]`; and on the duplicate
input `[(0,0),(0,0)]` the last step records `[(0,0),(0,0)]` while
`convexHull` returns the single vertex `[(0,0)]`. -/
theorem C2_trace_final_hull_mismatch :
    ((jarvisMarchWithSteps [⟨0,0⟩, ⟨3,0⟩, ⟨0,3⟩]).getLast?.map AlgorithmStep.type) =
      some StepType.complete ∧
    ((jarvisMarchWithSteps [⟨0,0⟩, ⟨3,0⟩, ⟨0,3⟩]).getLast?.map AlgorithmStep.hullSoFar) =
      some [⟨0,0⟩, ⟨0,3⟩, ⟨3,0⟩] ∧
    (convexHull [⟨0,0⟩, ⟨3,0⟩, ⟨0,3⟩]).vertices = [⟨0,0⟩, ⟨3,0⟩, ⟨0,3⟩] ∧
    ((jarvisMarchWithSteps [⟨0,0⟩, ⟨3,0⟩, ⟨0,3⟩]).getLast?.map AlgorithmStep.hullSoFar) ≠
      some (convexHull [⟨0,0⟩, ⟨3,0⟩, ⟨0,3⟩]).vertices ∧
    ((jarvisMarchWithSteps [⟨0,0⟩, ⟨0,0⟩]).getLast?.map AlgorithmStep.hullSoFar) =
      some [⟨0,0⟩, ⟨0,0⟩] ∧
    (convexHull [⟨0,0⟩, ⟨0,0⟩]).vertices = [⟨0,0⟩] := by
  decide

/-! ## Support lemmas on `removeDuplicates` -/

theorem pointsEqual_iff (a b : Point) : pointsEqual a b = true ↔ a = b := by
  cases a
  cases b
  simp [pointsEqual, Point.mk.injEq]

theorem mem_removeDuplicates_foldl (ps : List Point) :
    ∀ (acc : List Point) (x : Point),
      (x ∈ ps.foldl
        (fun unique p =>
          if unique.any (fun u => pointsEqual u p) then unique else unique ++ [p]) acc) ↔
      x ∈ acc ∨ x ∈ ps := by
  induction ps with
  | nil => simp
  | cons p ps ih =>
    intro acc x
    simp only [List.foldl_cons]
    by_cases hany : acc.any (fun u => pointsEqual u p) = true
    · have hp : p ∈ acc := by
        rcases List.any_eq_true.mp hany with ⟨u, hu, hpe⟩
        rw [pointsEqual_iff] at hpe
        rwa [hpe] at hu
      rw [if_pos hany, ih]
      constructor
      · rintro (h | h)
        · exact Or.inl h
        · exact Or.inr (List.mem_cons_of_mem _ h)
      · rintro (h | h)
        · exact Or.inl h
        · rcases List.mem_cons.mp h with h | h
          · exact Or.inl (h ▸ hp)
          · exact Or.inr h
    · rw [if_neg hany, ih]
      simp only [List.mem_append, List.mem_singleton, List.mem_cons]
      tauto

theorem mem_removeDuplicates (ps : List Point) (x : Point) :
    x ∈ removeDuplicates ps ↔ x ∈ ps := by
  rw [removeDuplicates, mem_removeDuplicates_foldl]
  simp

theorem nodup_removeDuplicates_foldl (ps : List Point) :
    ∀ acc : List Point, acc.Nodup →
      (ps.foldl
        (fun unique p =>
          if unique.any (fun u => pointsEqual u p) then unique else unique ++ [p]) acc).Nodup := by
  induction ps with
  | nil => intro acc h; simpa using h
  | cons p ps ih =>
    intro acc hacc
    simp only [List.foldl_cons]
    by_cases hany : acc.any (fun u => pointsEqual u p) = true
    · rw [if_pos hany]
      exact ih acc hacc
    · rw [if_neg hany]
      refine ih _ ?_
      have hp : p ∉ acc := by
        intro hmem
        exact hany (List.any_eq_true.mpr ⟨p, hmem, (pointsEqual_iff p p).mpr rfl⟩)
      simpa [List.nodup_append] using ⟨hacc, hp⟩

theorem nodup_removeDuplicates (ps : List Point) : (removeDuplicates ps).Nodup :=
  nodup_removeDuplicates_foldl ps [] List.nodup_nil

/-! ## Claim C4

The orchestrator is a total function in both observed versions; its
degenerate branches return the empty `point` result, the single-vertex
`point` result, and the `segment` classification exactly as the spec
states. -/

/-- C4: both `convexHull` versions are total Lean functions; the empty
input gives an empty `point` result, a deduplication with exactly one point
gives a `point` result with that vertex, and a deduplication with exactly
two points gives a `segment` result. -/
theorem C4_total_degenerate :
    convexHull [] = ⟨HullType.point, []⟩ ∧
    convexHullJM [] = ⟨HullType.point, []⟩ ∧
    (∀ (ps : List Point) (p : Point), removeDuplicates ps = [p] →
      convexHull ps = ⟨HullType.point, [p]⟩ ∧ convexHullJM ps = ⟨HullType.point, [p]⟩) ∧
    (∀ ps : List Point, (removeDuplicates ps).length = 2 →
      (convexHull ps).type = HullType.segment ∧ (convexHullJM ps).type = HullType.segment) := by
  refine ⟨by decide, by decide, ?_, ?_⟩
  · intro ps p h
    constructor
    · simp [convexHull, h]
    · simp [convexHullJM, h]
  · intro ps h
    constructor
    · simp [convexHull, h]
    · simp [convexHullJM, h]

/-- Witness for C4 at concrete inputs: a duplicated single point collapses
to a `point` result, and two distinct points give a `segment`. -/
theorem C4_total_degenerate_witness :
    convexHull [⟨5,7⟩, ⟨5,7⟩] = ⟨HullType.point, [⟨5,7⟩]⟩ ∧
    (convexHull [⟨1,2⟩, ⟨4,6⟩]).type = HullType.segment :=
  ⟨(C4_total_degenerate.2.2.1 [⟨5,7⟩, ⟨5,7⟩] ⟨5,7⟩ (by decide)).1,
   (C4_total_degenerate.2.2.2 [⟨1,2⟩, ⟨4,6⟩] (by decide)).1⟩

/-! ## Support lemmas for the farthest-pair scan (`getSegmentEndpoints`) -/

theorem distanceSquared_nonneg (a b : Point) : 0 ≤ distanceSquared a b := by
  have hx : 0 ≤ (a.x - b.x) ^ 2 := sq_nonneg _
  have hy : 0 ≤ (a.y - b.y) ^ 2 := sq_nonneg _
  simpa [distanceSquared] using add_nonneg hx hy

theorem distanceSquared_comm (a b : Point) : distanceSquared a b = distanceSquared b a := by
  simp [distanceSquared]
  ring

theorem mem_allPairs (l : List Point) (pr : Point × Point) (h : pr ∈ allPairs l) :
    pr.1 ∈ l ∧ pr.2 ∈ l := by
  induction l with
  | nil => simp [allPairs] at h
  | cons p rest ih =>
    simp only [allPairs, List.mem_append, List.mem_map] at h
    rcases h with ⟨q, hq, hpr⟩ | h
    · subst hpr
      exact ⟨List.mem_cons_self _ _, List.mem_cons_of_mem _ hq⟩
    · rcases ih h with ⟨h1, h2⟩
      exact ⟨List.mem_cons_of_mem _ h1, List.mem_cons_of_mem _ h2⟩

theorem allPairs_ne (l : List Point) (hnd : l.Nodup) (pr : Point × Point)
    (h : pr ∈ allPairs l) : pr.1 ≠ pr.2 := by
  induction l with
  | nil => simp [allPairs] at h
  | cons p rest ih =>
    rcases List.nodup_cons.mp hnd with ⟨hp, hrest⟩
    simp only [allPairs, List.mem_append, List.mem_map] at h
    rcases h with ⟨q, hq, hpr⟩ | h
    · subst hpr
      intro hc
      simp only at hc
      exact hp (by rw [hc]; exact hq)
    · exact ih hrest h

theorem allPairs_cover (l : List Point) (a b : Point) (ha : a ∈ l) (hb : b ∈ l)
    (hab : a ≠ b) : (a, b) ∈ allPairs l ∨ (b, a) ∈ allPairs l := by
  induction l with
  | nil => simp at ha
  | cons p rest ih =>
    simp only [allPairs, List.mem_append, List.mem_map]
    rcases List.mem_cons.mp ha with rfl | ha'
    · have hb' : b ∈ rest := by
        rcases List.mem_cons.mp hb with rfl | hb'
        · exact absurd rfl hab
        · exact hb'
      exact Or.inl (Or.inl ⟨b, hb', rfl⟩)
    · rcases List.mem_cons.mp hb with rfl | hb'
      · exact Or.inr (Or.inl ⟨a, ha', rfl⟩)
      · rcases ih ha' hb' with h | h
        · exact Or.inl (Or.inr h)
        · exact Or.inr (Or.inr h)

/-- Specification of the strict-improvement scan of `getSegmentEndpoints`:
either no pair beats the initial accumulator, or the scan returns the first
pair attaining the maximal squared distance of the list. -/
theorem segFold_spec (l : List (Point × Point)) :
    ∀ acc : Int × Point × Point,
      (l.foldl segStep acc = acc ∧
        ∀ pr ∈ l, distanceSquared pr.1 pr.2 ≤ acc.1) ∨
      (∃ l1 pq l2, l = l1 ++ pq :: l2 ∧
        l.foldl segStep acc = (distanceSquared pq.1 pq.2, pq.1, pq.2) ∧
        acc.1 < distanceSquared pq.1 pq.2 ∧
        (∀ pr ∈ l1, distanceSquared pr.1 pr.2 < distanceSquared pq.1 pq.2) ∧
        (∀ pr ∈ l2, distanceSquared pr.1 pr.2 ≤ distanceSquared pq.1 pq.2)) := by
  induction l with
  | nil => intro acc; exact Or.inl ⟨rfl, by simp⟩
  | cons pr0 l ih =>
    intro acc
    simp only [List.foldl_cons]
    by_cases h0 : distanceSquared pr0.1 pr0.2 > acc.1
    · have hstep : segStep acc pr0 = (distanceSquared pr0.1 pr0.2, pr0.1, pr0.2) := by
        simp [segStep, h0]
      rw [hstep]
      rcases ih (distanceSquared pr0.1 pr0.2, pr0.1, pr0.2) with ⟨heq, hle⟩ | ⟨l1, pq, l2, hsplit, heq, hlt, hl1, hl2⟩
      · refine Or.inr ⟨[], pr0, l, by simp, ?_, h0, by simp, hle⟩
        simpa using heq
      · refine Or.inr ⟨pr0 :: l1, pq, l2, by simp [hsplit], heq, ?_, ?_, hl2⟩
        · exact lt_trans h0 hlt
        · intro pr hpr
          rcases List.mem_cons.mp hpr with rfl | hpr'
          · exact hlt
          · exact hl1 pr hpr'
    · have hstep : segStep acc pr0 = acc := by
        simp [segStep, h0]
      rw [hstep]
      push_neg at h0
      rcases ih acc with ⟨heq, hle⟩ | ⟨l1, pq, l2, hsplit, heq, hlt, hl1, hl2⟩
      · refine Or.inl ⟨heq, ?_⟩
        intro pr hpr
        rcases List.mem_cons.mp hpr with rfl | hpr'
        · exact h0
        · exact hle pr hpr'
      · refine Or.inr ⟨pr0 :: l1, pq, l2, by simp [hsplit], heq, hlt, ?_, hl2⟩
        intro pr hpr
        rcases List.mem_cons.mp hpr with rfl | hpr'
        · exact lt_of_le_of_lt h0 hlt
        · exact hl1 pr hpr'

/-- Full specification of `getSegmentEndpoints` on a deduplicated list of
at least two points: it returns the first maximal-distance pair, ordered
lower-y-first (lower-x on ties). -/
theorem getSegmentEndpoints_spec (pts : List Point) (hnd : pts.Nodup)
    (hlen : 2 ≤ pts.length) :
    ∃ a b, getSegmentEndpoints pts = [a, b] ∧ a ∈ pts ∧ b ∈ pts ∧ a ≠ b ∧
      (a.y < b.y ∨ (a.y = b.y ∧ a.x < b.x)) ∧
      (∀ c d, c ∈ pts → d ∈ pts → distanceSquared c d ≤ distanceSquared a b) ∧
      ∃ l1 pq l2, allPairs pts = l1 ++ pq :: l2 ∧ (pq = (a, b) ∨ pq = (b, a)) ∧
        ∀ pr ∈ l1, distanceSquared pr.1 pr.2 < distanceSquared a b := by
  match pts, hlen with
  | p0 :: p1 :: rest, _ =>
  rcases segFold_spec (allPairs (p0 :: p1 :: rest)) (-1, p0, p0) with ⟨_, hle⟩ | ⟨l1, pq, l2, hsplit, heq, _, hl1, hl2⟩
  · exfalso
    have hmem : ((p0, p1) : Point × Point) ∈ allPairs (p0 :: p1 :: rest) := by
      simp [allPairs]
    have hle' := hle (p0, p1) hmem
    simp only at hle'
    have h0 := distanceSquared_nonneg p0 p1
    omega
  · obtain ⟨u, v⟩ := pq
    have hmem : ((u, v) : Point × Point) ∈ allPairs (p0 :: p1 :: rest) := by
      rw [hsplit]
      exact List.mem_append_right _ (List.mem_cons_self _ _)
    rcases mem_allPairs _ _ hmem with ⟨hm1, hm2⟩
    have hne : u ≠ v := allPairs_ne _ hnd _ hmem
    have hballpairs : ∀ pr ∈ allPairs (p0 :: p1 :: rest),
        distanceSquared pr.1 pr.2 ≤ distanceSquared u v := by
      intro pr hpr
      rw [hsplit] at hpr
      rcases List.mem_append.mp hpr with h | h
      · exact le_of_lt (hl1 _ h)
      · rcases List.mem_cons.mp h with rfl | h
        · exact le_refl _
        · exact hl2 _ h
    have hmax : ∀ c d, c ∈ p0 :: p1 :: rest → d ∈ p0 :: p1 :: rest →
        distanceSquared c d ≤ distanceSquared u v := by
      intro c d hc hd
      by_cases hcd : c = d
      · subst hcd
        have hz : distanceSquared c c = 0 := by simp [distanceSquared]
        rw [hz]
        exact distanceSquared_nonneg u v
      · rcases allPairs_cover _ c d hc hd hcd with h | h
        · exact hballpairs (c, d) h
        · rw [distanceSquared_comm]
          exact hballpairs (d, c) h
    have hres : getSegmentEndpoints (p0 :: p1 :: rest) =
        if u.y < v.y || (u.y == v.y && u.x < v.x)
          then [u, v] else [v, u] := by
      simp only [getSegmentEndpoints, heq]
    have hcoord : u.x ≠ v.x ∨ u.y ≠ v.y := by
      by_contra hc
      push_neg at hc
      exact hne (Point.ext hc.1 hc.2)
    by_cases hord : u.y < v.y ∨ (u.y = v.y ∧ u.x < v.x)
    · refine ⟨u, v, ?_, hm1, hm2, hne, hord, hmax, l1, (u, v), l2, hsplit, Or.inl rfl, hl1⟩
      rw [hres, if_pos]
      rcases hord with h | ⟨h1, h2⟩
      · simp [h]
      · simp [h1, h2]
    · have hord' : v.y < u.y ∨ (v.y = u.y ∧ v.x < u.x) := by
        push_neg at hord
        rcases hcoord with h | h <;> omega
      refine ⟨v, u, ?_, hm2, hm1, hne.symm, hord', ?_, l1, (u, v), l2, hsplit, Or.inr rfl, ?_⟩
      · rw [hres, if_neg]
        push_neg at hord
        rcases hord with ⟨h1, h2⟩
        simp only [Bool.or_eq_true, Bool.and_eq_true, decide_eq_true_eq, beq_iff_eq]
        push_neg
        refine ⟨by omega, ?_⟩
        intro hy
        exact h2 hy
      · intro c d hc hd
        rw [distanceSquared_comm v u]
        exact hmax c d hc hd
      · intro pr hpr
        rw [distanceSquared_comm v u]
        exact hl1 pr hpr

theorem convexHull_segment_branch (ps : List Point)
    (h : (removeDuplicates ps).length = 2 ∨
      (3 ≤ (removeDuplicates ps).length ∧ areCollinear (removeDuplicates ps) = true)) :
    convexHull ps = ⟨HullType.segment, getSegmentEndpoints (removeDuplicates ps)⟩ ∧
    convexHullJM ps = ⟨HullType.segment, getSegmentEndpoints (removeDuplicates ps)⟩ := by
  rcases h with h | ⟨h3, hcol⟩
  · constructor <;> simp [convexHull, convexHullJM, h]
  · have h0 : (removeDuplicates ps).length ≠ 0 := by omega
    have h1 : (removeDuplicates ps).length ≠ 1 := by omega
    have h2 : (removeDuplicates ps).length ≠ 2 := by omega
    constructor <;> simp [convexHull, convexHullJM, h0, h1, h2, hcol]

/-! ## Claim C5

When the deduplicated input has exactly two points, or three or more
collinear points, both orchestrator versions return a `segment` whose two
vertices are the first maximal-squared-distance pair of distinct input
points in the scan's iteration order, placed lower-y (then lower-x)
first. -/

/-- C5: for every input whose deduplication yields two points or a
collinear set of three or more, `convexHull` (both versions) returns type
`segment` with exactly two vertices: a maximal-squared-distance pair of
distinct input points, the first such pair in the pair scan's iteration
order, ordered lower-y first and lower-x on equal y; and in particular
`[(0,0),(1,1),(2,2),(3,3)]` yields the segment `[(0,0),(3,3)]`. -/
theorem C5_collinear_segment :
    (∀ ps : List Point,
      ((removeDuplicates ps).length = 2 ∨
        (3 ≤ (removeDuplicates ps).length ∧ areCollinear (removeDuplicates ps) = true)) →
      (convexHull ps).type = HullType.segment ∧
      (convexHullJM ps).type = HullType.segment ∧
      ∃ a b, (convexHull ps).vertices = [a, b] ∧ (convexHullJM ps).vertices = [a, b] ∧
        a ∈ ps ∧ b ∈ ps ∧ a ≠ b ∧
        (a.y < b.y ∨ (a.y = b.y ∧ a.x < b.x)) ∧
        (∀ c d, c ∈ ps → d ∈ ps → distanceSquared c d ≤ distanceSquared a b) ∧
        ∃ l1 pq l2, allPairs (removeDuplicates ps) = l1 ++ pq :: l2 ∧
          (pq = (a, b) ∨ pq = (b, a)) ∧
          ∀ pr ∈ l1, distanceSquared pr.1 pr.2 < distanceSquared a b) ∧
    convexHull [⟨0,0⟩, ⟨1,1⟩, ⟨2,2⟩, ⟨3,3⟩] = ⟨HullType.segment, [⟨0,0⟩, ⟨3,3⟩]⟩ := by
  constructor
  · intro ps h
    obtain ⟨hch, hchjm⟩ := convexHull_segment_branch ps h
    have hlen : 2 ≤ (removeDuplicates ps).length := by
      rcases h with h | ⟨h3, _⟩ <;> omega
    obtain ⟨a, b, hseg, ha, hb, hab, hord, hmax, l1, pq, l2, hsplit, hpq, hl1⟩ :=
      getSegmentEndpoints_spec (removeDuplicates ps) (nodup_removeDuplicates ps) hlen
    refine ⟨by rw [hch], by rw [hchjm], a, b, by rw [hch]; exact hseg,
      by rw [hchjm]; exact hseg,
      (mem_removeDuplicates ps a).mp ha, (mem_removeDuplicates ps b).mp hb, hab, hord,
      ?_, l1, pq, l2, hsplit, hpq, hl1⟩
    intro c d hc hd
    exact hmax c d ((mem_removeDuplicates ps c).mpr hc) ((mem_removeDuplicates ps d).mpr hd)
  · decide

/-- Witness for C5: the universal part instantiated on the concrete
collinear input `[(0,0),(1,1),(2,2),(3,3)]`, whose endpoints are `(0,0)`
and `(3,3)`. -/
theorem C5_collinear_segment_witness :
    (convexHull [⟨0,0⟩, ⟨1,1⟩, ⟨2,2⟩, ⟨3,3⟩]).type = HullType.segment :=
  (C5_collinear_segment.1 [⟨0,0⟩, ⟨1,1⟩, ⟨2,2⟩, ⟨3,3⟩] (by decide)).1

/-! ## Support lemmas on the wrapping loop and start selection -/

theorem wrapLoop_append (pts : List Point) (sel : List Point → Nat → Nat) (start : Nat) :
    ∀ (fuel current : Nat) (hull : List Point),
      ∃ t, wrapLoop pts sel start fuel current hull = hull ++ t := by
  intro fuel
  induction fuel with
  | zero => intro current hull; exact ⟨[], by simp [wrapLoop]⟩
  | succ fuel ih =>
    intro current hull
    rw [wrapLoop]
    by_cases hcond : sel pts current ≠ start ∧ (hull ++ [pget pts current]).length < pts.length
    · rw [if_pos hcond]
      obtain ⟨t, ht⟩ := ih (sel pts current) (hull ++ [pget pts current])
      exact ⟨[pget pts current] ++ t, by rw [ht, List.append_assoc]⟩
    · rw [if_neg hcond]
      exact ⟨[pget pts current], rfl⟩

theorem wrapLoop_head (pts : List Point) (sel : List Point → Nat → Nat)
    (start fuel current : Nat) (hull : List Point) :
    ∃ t, wrapLoop pts sel start (fuel + 1) current hull = hull ++ pget pts current :: t := by
  rw [wrapLoop]
  by_cases hcond : sel pts current ≠ start ∧ (hull ++ [pget pts current]).length < pts.length
  · rw [if_pos hcond]
    obtain ⟨t, ht⟩ := wrapLoop_append pts sel start fuel (sel pts current) (hull ++ [pget pts current])
    exact ⟨t, by rw [ht, List.append_assoc]; rfl⟩
  · rw [if_neg hcond]
    exact ⟨[], rfl⟩

theorem startStep_cases (pts : List Point) (s i : Nat) :
    (startStep pts s i = i ∧
      ((pget pts i).y < (pget pts s).y ∨
        ((pget pts i).y = (pget pts s).y ∧ (pget pts i).x < (pget pts s).x))) ∨
    (startStep pts s i = s ∧
      ¬((pget pts i).y < (pget pts s).y ∨
        ((pget pts i).y = (pget pts s).y ∧ (pget pts i).x < (pget pts s).x))) := by
  by_cases h : (pget pts i).y < (pget pts s).y ∨
      ((pget pts i).y = (pget pts s).y ∧ (pget pts i).x < (pget pts s).x)
  · refine Or.inl ⟨?_, h⟩
    rw [startStep, if_pos]
    rcases h with h | ⟨h1, h2⟩
    · simp [h]
    · simp [h1, h2]
  · refine Or.inr ⟨?_, h⟩
    rw [startStep, if_neg]
    push_neg at h
    simp only [Bool.or_eq_true, Bool.and_eq_true, decide_eq_true_eq, beq_iff_eq]
    push_neg
    exact ⟨h.1, fun hy => h.2 hy⟩

theorem startFold_spec (pts : List Point) :
    ∀ (L : List Nat) (s0 : Nat),
      (L.foldl (startStep pts) s0 = s0 ∨ L.foldl (startStep pts) s0 ∈ L) ∧
      ((pget pts (L.foldl (startStep pts) s0)).y < (pget pts s0).y ∨
        ((pget pts (L.foldl (startStep pts) s0)).y = (pget pts s0).y ∧
          (pget pts (L.foldl (startStep pts) s0)).x ≤ (pget pts s0).x)) ∧
      ∀ i ∈ L, (pget pts (L.foldl (startStep pts) s0)).y < (pget pts i).y ∨
        ((pget pts (L.foldl (startStep pts) s0)).y = (pget pts i).y ∧
          (pget pts (L.foldl (startStep pts) s0)).x ≤ (pget pts i).x) := by
  intro L
  induction L with
  | nil =>
    intro s0
    exact ⟨Or.inl rfl, Or.inr ⟨rfl, le_refl _⟩, by simp⟩
  | cons i L ih =>
    intro s0
    simp only [List.foldl_cons]
    obtain ⟨hmem, hle, hall⟩ := ih (startStep pts s0 i)
    rcases startStep_cases pts s0 i with ⟨hs, hlt⟩ | ⟨hs, hnlt⟩
    · rw [hs] at hmem hle hall ⊢
      refine ⟨?_, ?_, ?_⟩
      · rcases hmem with h | h
        · exact Or.inr (by rw [h]; exact List.mem_cons_self _ _)
        · exact Or.inr (List.mem_cons_of_mem _ h)
      · rcases hle with h | ⟨h1, h2⟩ <;> rcases hlt with h' | ⟨h1', h2'⟩ <;> omega
      · intro j hj
        rcases List.mem_cons.mp hj with rfl | hj'
        · exact hle
        · exact hall j hj'
    · rw [hs] at hmem hle hall ⊢
      refine ⟨?_, hle, ?_⟩
      · rcases hmem with h | h
        · exact Or.inl h
        · exact Or.inr (List.mem_cons_of_mem _ h)
      · intro j hj
        rcases List.mem_cons.mp hj with rfl | hj'
        · push_neg at hnlt
          rcases hle with h | ⟨h1, h2⟩
          · rcases hnlt with ⟨h1', h2'⟩
            omega
          · have := hnlt.1
            have h2' := hnlt.2
            by_cases hy : (pget pts j).y = (pget pts s0).y
            · have := h2' hy
              omega
            · omega
        · exact hall j hj'

theorem pget_mem (pts : List Point) (i : Nat) (h : i < pts.length) :
    pget pts i ∈ pts := by
  rw [pget, List.getD_eq_getElem pts ⟨0, 0⟩ h]
  exact List.getElem_mem h

theorem mem_pget (pts : List Point) (q : Point) (h : q ∈ pts) :
    ∃ i, i < pts.length ∧ pget pts i = q := by
  rcases List.mem_iff_getElem.mp h with ⟨i, hi, hq⟩
  exact ⟨i, hi, by rw [pget, List.getD_eq_getElem pts ⟨0, 0⟩ hi]; exact hq⟩

theorem startIndexOf_lt (pts : List Point) (h : 0 < pts.length) :
    startIndexOf pts < pts.length := by
  obtain ⟨hmem, -, -⟩ := startFold_spec pts (List.range' 1 (pts.length - 1)) 0
  rw [startIndexOf]
  rcases hmem with heq | hmem
  · omega
  · have := List.mem_range'_1.mp hmem
    omega

theorem startIndexOf_min (pts : List Point) (h : 0 < pts.length) :
    ∀ q ∈ pts, (pget pts (startIndexOf pts)).y < q.y ∨
      ((pget pts (startIndexOf pts)).y = q.y ∧ (pget pts (startIndexOf pts)).x ≤ q.x) := by
  intro q hq
  obtain ⟨i, hi, rfl⟩ := mem_pget pts q hq
  obtain ⟨-, hle, hall⟩ := startFold_spec pts (List.range' 1 (pts.length - 1)) 0
  rw [startIndexOf]
  by_cases hi0 : i = 0
  · subst hi0
    exact hle
  · exact hall i (List.mem_range'_1.mpr ⟨by omega, by omega⟩)

/-! ## Claim C6

Both hull computers first push the point with lowest y coordinate (ties
broken by lowest x), so it is the first vertex of the returned hull. -/

/-- C6: for a deduplicated, non-collinear input of three or more points,
`giftWrap` and `jarvisMarch` both start their output with the input point
of minimum y coordinate (minimum x on ties), and that point is a vertex of
the returned hull. -/
theorem C6_start_vertex (ps : List Point) (h3 : 3 ≤ ps.length) (_hnd : ps.Nodup)
    (_hnc : areCollinear ps = false) :
    ∃ b t t', giftWrap ps = b :: t ∧ jarvisMarch ps = b :: t' ∧ b ∈ ps ∧
      ∀ q ∈ ps, b.y < q.y ∨ (b.y = q.y ∧ b.x ≤ q.x) := by
  have hnlt : ¬ps.length < 3 := by omega
  have hfuel : ps.length = (ps.length - 1) + 1 := by omega
  obtain ⟨t, ht⟩ := wrapLoop_head ps gwSelect (startIndexOf ps) (ps.length - 1)
    (startIndexOf ps) []
  obtain ⟨t', ht'⟩ := wrapLoop_head ps jmSelect (startIndexOf ps) (ps.length - 1)
    (startIndexOf ps) []
  refine ⟨pget ps (startIndexOf ps), t, t', ?_, ?_,
    pget_mem ps (startIndexOf ps) (startIndexOf_lt ps (by omega)), ?_⟩
  · rw [giftWrap, if_neg hnlt, hfuel]
    exact ht
  · rw [jarvisMarch, if_neg hnlt, hfuel]
    exact ht'
  · exact startIndexOf_min ps (by omega)

/-- Witness for C6 at the concrete non-collinear triangle
`[(1,2),(0,0),(2,1)]`, whose lowest point is `(0,0)`. -/
theorem C6_start_vertex_witness :
    ∃ b t t', giftWrap [⟨1,2⟩, ⟨0,0⟩, ⟨2,1⟩] = b :: t ∧
      jarvisMarch [⟨1,2⟩, ⟨0,0⟩, ⟨2,1⟩] = b :: t' ∧
      b ∈ ([⟨1,2⟩, ⟨0,0⟩, ⟨2,1⟩] : List Point) ∧
      ∀ q ∈ ([⟨1,2⟩, ⟨0,0⟩, ⟨2,1⟩] : List Point),
        b.y < q.y ∨ (b.y = q.y ∧ b.x ≤ q.x) :=
  C6_start_vertex [⟨1,2⟩, ⟨0,0⟩, ⟨2,1⟩] (by decide) (by decide) (by decide)

/-! ## Claim C7

Both candidate scans resolve an exactly collinear probe (`cross == 0`) by
keeping whichever of candidate/probe is farther from the current point, so
a point interior to a collinear run is skipped; on the concrete input
`[(0,0),(4,0),(0,4),(2,0)]` the point `(2,0)` lying on the bottom edge is
excluded from both versions' triangle. -/

/-- C7: when the probe is exactly collinear with the candidate (cross
product zero), `gwStep` and `jmStep` keep whichever of the two is farther
(by squared distance) from the current point; consequently, on
`[(0,0),(4,0),(0,4),(2,0)]` both `convexHull` versions return a `triangle`
with vertex set `{(0,0),(4,0),(0,4)}`, excluding the edge point
`(2,0)`. -/
theorem C7_collinear_tiebreak :
    (∀ (pts : List Point) (cur next i : Nat), next ≠ cur →
      crossProduct (pget pts cur) (pget pts next) (pget pts i) = 0 →
      gwStep pts cur next i =
        if distanceSquared (pget pts cur) (pget pts i) >
            distanceSquared (pget pts cur) (pget pts next) then i else next) ∧
    (∀ (pts : List Point) (cur next i : Nat), i ≠ cur → next ≠ cur →
      crossProduct (pget pts cur) (pget pts next) (pget pts i) = 0 →
      jmStep pts cur next i =
        if distanceSquared (pget pts cur) (pget pts i) >
            distanceSquared (pget pts cur) (pget pts next) then i else next) ∧
    convexHull [⟨0,0⟩, ⟨4,0⟩, ⟨0,4⟩, ⟨2,0⟩] =
      ⟨HullType.triangle, [⟨0,0⟩, ⟨4,0⟩, ⟨0,4⟩]⟩ ∧
    convexHullJM [⟨0,0⟩, ⟨4,0⟩, ⟨0,4⟩, ⟨2,0⟩] =
      ⟨HullType.triangle, [⟨0,0⟩, ⟨0,4⟩, ⟨4,0⟩]⟩ ∧
    (⟨2,0⟩ : Point) ∉ (convexHull [⟨0,0⟩, ⟨4,0⟩, ⟨0,4⟩, ⟨2,0⟩]).vertices ∧
    (⟨2,0⟩ : Point) ∉ (convexHullJM [⟨0,0⟩, ⟨4,0⟩, ⟨0,4⟩, ⟨2,0⟩]).vertices := by
  refine ⟨?_, ?_, by decide, by decide, by decide, by decide⟩
  · intro pts cur next i hnext hcross
    rw [gwStep, if_neg hnext]
    simp only [hcross]
    norm_num
  · intro pts cur next i hi hnext hcross
    rw [jmStep, if_neg hi, if_neg hnext]
    simp only [hcross]
    norm_num

/-- Witness for C7: on the collinear run `[(0,0),(1,0),(2,0)]`, from
current index 0 with candidate 1, the probe 2 (collinear and farther)
replaces the candidate in both scan bodies. -/
theorem C7_collinear_tiebreak_witness :
    gwStep [⟨0,0⟩, ⟨1,0⟩, ⟨2,0⟩] 0 1 2 = 2 ∧ jmStep [⟨0,0⟩, ⟨1,0⟩, ⟨2,0⟩] 0 1 2 = 2 := by
  have h1 := C7_collinear_tiebreak.1 [⟨0,0⟩, ⟨1,0⟩, ⟨2,0⟩] 0 1 2 (by decide) (by decide)
  have h2 := C7_collinear_tiebreak.2.1 [⟨0,0⟩, ⟨1,0⟩, ⟨2,0⟩] 0 1 2 (by decide) (by decide)
    (by decide)
  rw [h1, h2]
  refine ⟨?_, ?_⟩ <;> decide

/-! ## Claim C8

The wrapping loop always terminates: the `hull.length < n` guard bounds
the number of iterations by the input size, so the fuel-modelled loop is
stable under any surplus fuel, and the returned hull never has more
vertices than the input. -/

theorem wrapLoop_length_le (pts : List Point) (sel : List Point → Nat → Nat) (start : Nat) :
    ∀ (fuel current : Nat) (hull : List Point),
      (wrapLoop pts sel start fuel current hull).length ≤ hull.length + fuel := by
  intro fuel
  induction fuel with
  | zero => intro current hull; simp [wrapLoop]
  | succ fuel ih =>
    intro current hull
    rw [wrapLoop]
    by_cases hcond : sel pts current ≠ start ∧ (hull ++ [pget pts current]).length < pts.length
    · rw [if_pos hcond]
      have := ih (sel pts current) (hull ++ [pget pts current])
      simp only [List.length_append, List.length_singleton] at this
      omega
    · rw [if_neg hcond]
      simp only [List.length_append, List.length_singleton]
      omega

theorem wrapLoop_fuel_stable (pts : List Point) (sel : List Point → Nat → Nat) (start : Nat) :
    ∀ (f1 f2 current : Nat) (hull : List Point), 1 ≤ f1 → 1 ≤ f2 →
      pts.length ≤ hull.length + f1 → pts.length ≤ hull.length + f2 →
      wrapLoop pts sel start f1 current hull = wrapLoop pts sel start f2 current hull := by
  intro f1
  induction f1 with
  | zero => intro f2 current hull h1; omega
  | succ f1 ih =>
    intro f2 current hull _ h2 hb1 hb2
    match f2, h2 with
    | f2 + 1, _ =>
      rw [wrapLoop, wrapLoop]
      by_cases hcond : sel pts current ≠ start ∧ (hull ++ [pget pts current]).length < pts.length
      · rw [if_pos hcond, if_pos hcond]
        have hl : (hull ++ [pget pts current]).length = hull.length + 1 := by
          simp
        exact ih f2 (sel pts current) (hull ++ [pget pts current])
          (by omega) (by omega) (by omega) (by omega)
      · rw [if_neg hcond, if_neg hcond]

/-- C8: the returned hull of either hull computer never has more vertices
than the input sequence, and the fuel-modelled wrapping loop is stable
under surplus fuel (the loop reaches one of its two stop conditions — next
vertex equal to the start, or hull length equal to the input size — within
`pts.length` iterations). -/
theorem C8_loop_terminates :
    (∀ pts : List Point, (giftWrap pts).length ≤ pts.length) ∧
    (∀ pts : List Point, (jarvisMarch pts).length ≤ pts.length) ∧
    (∀ (pts : List Point) (extra : Nat), 3 ≤ pts.length →
      wrapLoop pts gwSelect (startIndexOf pts) (pts.length + extra)
          (startIndexOf pts) [] = giftWrap pts ∧
      wrapLoop pts jmSelect (startIndexOf pts) (pts.length + extra)
          (startIndexOf pts) [] = jarvisMarch pts) := by
  refine ⟨?_, ?_, ?_⟩
  · intro pts
    rw [giftWrap]
    by_cases h : pts.length < 3
    · rw [if_pos h]
    · rw [if_neg h]
      have := wrapLoop_length_le pts gwSelect (startIndexOf pts) pts.length
        (startIndexOf pts) []
      simpa using this
  · intro pts
    rw [jarvisMarch]
    by_cases h : pts.length < 3
    · rw [if_pos h]
    · rw [if_neg h]
      have := wrapLoop_length_le pts jmSelect (startIndexOf pts) pts.length
        (startIndexOf pts) []
      simpa using this
  · intro pts extra h3
    have hnlt : ¬pts.length < 3 := by omega
    constructor
    · rw [giftWrap, if_neg hnlt]
      exact wrapLoop_fuel_stable pts gwSelect (startIndexOf pts) (pts.length + extra)
        pts.length (startIndexOf pts) [] (by omega) (by omega) (by simp) (by simp)
    · rw [jarvisMarch, if_neg hnlt]
      exact wrapLoop_fuel_stable pts jmSelect (startIndexOf pts) (pts.length + extra)
        pts.length (startIndexOf pts) [] (by omega) (by omega) (by simp) (by simp)

/-- Witness for C8: with two units of surplus fuel the wrapping loop
returns the same triangle on a concrete three-point input. -/
theorem C8_loop_terminates_witness :
    wrapLoop [⟨0,0⟩, ⟨4,0⟩, ⟨0,4⟩] gwSelect (startIndexOf [⟨0,0⟩, ⟨4,0⟩, ⟨0,4⟩])
      (([⟨0,0⟩, ⟨4,0⟩, ⟨0,4⟩] : List Point).length + 2)
      (startIndexOf [⟨0,0⟩, ⟨4,0⟩, ⟨0,4⟩]) [] = giftWrap [⟨0,0⟩, ⟨4,0⟩, ⟨0,4⟩] :=
  (C8_loop_terminates.2.2 [⟨0,0⟩, ⟨4,0⟩, ⟨0,4⟩] 2 (by decide)).1

/-! ## Claim C10

The tracer's step sequence always ends in exactly one `complete` step: all
steps emitted by the wrapping loop are `checking` or `found`, the opening
step is `start`, and the final step is the only `complete` one; below
three points the whole sequence is that single `complete` step. -/

theorem jmsInner_mem (pts : List Point) (cur : Nat) (hull : List Point)
    (next : Nat) (steps : List AlgorithmStep) (i : Nat) (st : AlgorithmStep)
    (h : st ∈ (jmsInner pts cur hull (next, steps) i).2) :
    st ∈ steps ∨ st.type = StepType.checking ∨ st.type = StepType.found := by
  simp only [jmsInner] at h
  split at h
  · exact Or.inl h
  · split at h
    · rcases List.mem_append.mp h with h | h
      · exact Or.inl h
      · rcases List.mem_cons.mp h with rfl | h
        · exact Or.inr (Or.inl rfl)
        · rw [List.mem_singleton.mp h]
          exact Or.inr (Or.inr rfl)
    · split at h
      · split at h
        · rcases List.mem_append.mp h with h | h
          · exact Or.inl h
          · rcases List.mem_cons.mp h with rfl | h
            · exact Or.inr (Or.inl rfl)
            · rw [List.mem_singleton.mp h]
              exact Or.inr (Or.inr rfl)
        · rcases List.mem_append.mp h with h | h
          · exact Or.inl h
          · rcases List.mem_cons.mp h with rfl | h
            · exact Or.inr (Or.inl rfl)
            · rw [List.mem_singleton.mp h]
              exact Or.inr (Or.inl rfl)
      · rcases List.mem_append.mp h with h | h
        · exact Or.inl h
        · rcases List.mem_cons.mp h with rfl | h
          · exact Or.inr (Or.inl rfl)
          · rw [List.mem_singleton.mp h]
            exact Or.inr (Or.inl rfl)

theorem jmsInner_fold_mem (pts : List Point) (cur : Nat) (hull : List Point) :
    ∀ (L : List Nat) (acc : Nat × List AlgorithmStep) (st : AlgorithmStep),
      st ∈ (L.foldl (jmsInner pts cur hull) acc).2 →
      st ∈ acc.2 ∨ st.type = StepType.checking ∨ st.type = StepType.found := by
  intro L
  induction L with
  | nil => intro acc st h; exact Or.inl h
  | cons i L ih =>
    intro acc st h
    simp only [List.foldl_cons] at h
    rcases ih (jmsInner pts cur hull acc i) st h with h' | h'
    · obtain ⟨n, s⟩ := acc
      exact jmsInner_mem pts cur hull n s i st h'
    · exact Or.inr h'

theorem jmsLoop_mem (pts : List Point) (start : Nat) :
    ∀ (fuel cur : Nat) (hull : List Point) (isFirst : Bool)
      (acc : List AlgorithmStep) (st : AlgorithmStep),
      st ∈ (jmsLoop pts start fuel cur hull isFirst acc).2 →
      st ∈ acc ∨ st.type = StepType.checking ∨ st.type = StepType.found := by
  intro fuel
  induction fuel with
  | zero => intro cur hull isFirst acc st h; exact Or.inl h
  | succ fuel ih =>
    intro cur hull isFirst acc st h
    rw [jmsLoop] at h
    have hstep : ∀ u : AlgorithmStep,
        u ∈ acc ++ [jmsAddStep pts cur (hull ++ [pget pts cur]) isFirst,
            jmsPickStep pts cur (hull ++ [pget pts cur])] ++
          ((List.range pts.length).foldl
            (jmsInner pts cur (hull ++ [pget pts cur]))
            ((cur + 1) % pts.length, [])).2 →
        u ∈ acc ∨ u.type = StepType.checking ∨ u.type = StepType.found := by
      intro u hu
      rcases List.mem_append.mp hu with hu | hu
      · rcases List.mem_append.mp hu with hu | hu
        · exact Or.inl hu
        · rcases List.mem_cons.mp hu with rfl | hu
          · exact Or.inr (Or.inr rfl)
          · rw [List.mem_singleton.mp hu]
            exact Or.inr (Or.inl rfl)
      · rcases jmsInner_fold_mem pts cur (hull ++ [pget pts cur]) (List.range pts.length)
          ((cur + 1) % pts.length, []) u hu with hu' | hu'
        · exact absurd hu' (List.not_mem_nil u)
        · exact Or.inr hu'
    split at h
    · rcases ih _ _ _ _ st h with h' | h'
      · exact hstep st h'
      · exact Or.inr h'
    · exact hstep st h

/-- C10: for every input, the step sequence of `jarvisMarchWithSteps` ends
with a `complete` step and no earlier step is `complete` (so there is
exactly one); for inputs of fewer than three points the sequence is that
single `complete` step. -/
theorem C10_trace_termination (pts : List Point) :
    (∃ init c, jarvisMarchWithSteps pts = init ++ [c] ∧
      c.type = StepType.complete ∧ ∀ st ∈ init, st.type ≠ StepType.complete) ∧
    (pts.length < 3 → (jarvisMarchWithSteps pts).length = 1) := by
  by_cases h : pts.length < 3
  · rw [jarvisMarchWithSteps, if_pos h]
    exact ⟨⟨[], _, rfl, rfl, by simp⟩, fun _ => rfl⟩
  · constructor
    · rw [jarvisMarchWithSteps, if_neg h]
      simp only []
      refine ⟨_, _, rfl, rfl, ?_⟩
      intro st hst
      simp only [List.mem_append, List.mem_singleton] at hst
      rcases hst with rfl | hst
      · intro hc
        cases hc
      · rcases jmsLoop_mem pts (startIndexOf pts) pts.length (startIndexOf pts) [] true []
          st hst with h' | h' | h'
        · exact absurd h' (List.not_mem_nil st)
        · rw [h']
          intro hc
          cases hc
        · rw [h']
          intro hc
          cases hc
    · intro hlt
      exact absurd hlt h

/-- Witness for C10: a one-point input yields a step sequence of length
one. -/
theorem C10_trace_termination_witness : (jarvisMarchWithSteps [⟨0,0⟩]).length = 1 :=
  (C10_trace_termination [⟨0,0⟩]).2 (by decide)

/-! ## Claim C9: vector algebra core

Idempotence of `convexHull` requires the geometric correctness of the
wrapping loop.  The development below works with displacement vectors
(`vsub`), the planar cross product (`vcross`) and dot product (`vdot`),
and a sign parameter `σ` (`1` for the counter-clockwise `giftWrap`
convention, `-1` for the clockwise `jarvisMarch` convention). -/

def vsub (a b : Point) : Point := ⟨a.x - b.x, a.y - b.y⟩

def vcross (a b : Point) : Int := a.x * b.y - a.y * b.x

def vdot (a b : Point) : Int := a.x * b.x + a.y * b.y

theorem crossProduct_eq_vcross (o a b : Point) :
    crossProduct o a b = vcross (vsub a o) (vsub b o) := rfl

theorem distanceSquared_eq_vdot (a b : Point) :
    distanceSquared a b = vdot (vsub a b) (vsub a b) := by
  simp only [distanceSquared, vdot, vsub]
  ring

theorem vcross_swap (a b : Point) : vcross a b = -vcross b a := by
  simp only [vcross]
  ring

theorem vcross_base_shift (c w p : Point) :
    vcross (vsub w c) (vsub p w) = vcross (vsub w c) (vsub p c) := by
  simp only [vcross, vsub]
  ring

theorem vdot_self_nonneg (a : Point) : 0 ≤ vdot a a := by
  have hx := sq_nonneg a.x
  have hy := sq_nonneg a.y
  simp only [vdot]
  nlinarith

theorem vdot_self_eq_zero (a : Point) (h : vdot a a = 0) : a = ⟨0, 0⟩ := by
  obtain ⟨ax, ay⟩ := a
  simp only [vdot] at h
  have hx : ax = 0 := by nlinarith [sq_nonneg ax, sq_nonneg ay]
  have hy : ay = 0 := by nlinarith [sq_nonneg ax, sq_nonneg ay]
  simp [hx, hy]

/-- The 2D Plücker identity: any three planar vectors are linearly
dependent. -/
theorem pluecker (v a b c : Point) :
    vcross v a * vcross b c - vcross v b * vcross a c + vcross v c * vcross a b = 0 := by
  simp only [vcross]
  ring

/-- Resolving a cross product along a reference vector `a`. -/
theorem cross_dot_resolve (u a b : Point) :
    vcross u b * vdot a a = vcross u a * vdot a b + vdot u a * vcross a b := by
  simp only [vcross, vdot]
  ring

/-- The Lagrange identity in the plane. -/
theorem lagrange (a b : Point) :
    vdot a a * vdot b b = vdot a b ^ 2 + vcross a b ^ 2 := by
  simp only [vcross, vdot]
  ring

/-- Rotation invariance: resolving a dot product along a reference
vector `v`. -/
theorem dot_rotation (v a b : Point) :
    vdot a b * vdot v v = vdot v a * vdot v b + vcross v a * vcross v b := by
  simp only [vcross, vdot]
  ring

/-- Two collinear vectors with equal length and non-negative dot product
are equal. -/
theorem collinear_same_ray_eq (a b : Point) (hc : vcross a b = 0)
    (hd : 0 ≤ vdot a b) (hl : vdot a a = vdot b b) : a = b := by
  have hlag := lagrange a b
  rw [hc] at hlag
  have hdot : vdot a b = vdot a a := by nlinarith [vdot_self_nonneg a, vdot_self_nonneg b]
  have : vdot (vsub a b) (vsub a b) = 0 := by
    obtain ⟨ax, ay⟩ := a
    obtain ⟨bx, by'⟩ := b
    simp only [vdot, vsub] at hdot hl ⊢
    nlinarith
  have := vdot_self_eq_zero _ this
  obtain ⟨ax, ay⟩ := a
  obtain ⟨bx, by'⟩ := b
  simp only [vsub, Point.mk.injEq] at this
  have h1 : ax = bx := by omega
  have h2 : ay = by' := by omega
  simp [h1, h2]

theorem vdot_comm (a b : Point) : vdot a b = vdot b a := by
  simp only [vdot]
  ring

theorem vcross_zero_left (b : Point) : vcross ⟨0, 0⟩ b = 0 := by
  simp [vcross]

theorem vcross_zero_right (a : Point) : vcross a ⟨0, 0⟩ = 0 := by
  simp [vcross]

theorem vdot_self_pos (a : Point) (h : a ≠ ⟨0, 0⟩) : 0 < vdot a a := by
  rcases lt_or_eq_of_le (vdot_self_nonneg a) with h' | h'
  · exact h'
  · exact absurd (vdot_self_eq_zero a h'.symm) h

theorem dist_vsub (c p : Point) : distanceSquared c p = vdot (vsub p c) (vsub p c) := by
  simp only [distanceSquared, vdot, vsub]
  ring

/-- Two nonzero collinear vectors with non-negative dot product have a
strictly positive dot product. -/
theorem collinear_dot_pos (a b : Point) (ha : a ≠ ⟨0, 0⟩) (hb : b ≠ ⟨0, 0⟩)
    (hc : vcross a b = 0) (hd : 0 ≤ vdot a b) : 0 < vdot a b := by
  rcases lt_or_eq_of_le hd with h | h
  · exact h
  · exfalso
    have hl := lagrange a b
    rw [hc, ← h] at hl
    have ha' := vdot_self_pos a ha
    have hb' := vdot_self_pos b hb
    nlinarith

/-- The candidate-replacement relation of the wrapping loops, as a
relation on points: probe `p` beats candidate `q` seen from `c` when it is
strictly more `σ`-counterclockwise, or exactly collinear and strictly
farther. -/
def beats (σ : Int) (c p q : Point) : Prop :=
  σ * vcross (vsub q c) (vsub p c) < 0 ∨
    (vcross (vsub q c) (vsub p c) = 0 ∧ distanceSquared c q < distanceSquared c p)

theorem not_beats_iff (σ : Int) (c m q : Point) :
    ¬ beats σ c m q ↔
      0 ≤ σ * vcross (vsub q c) (vsub m c) ∧
        (vcross (vsub q c) (vsub m c) = 0 → distanceSquared c m ≤ distanceSquared c q) := by
  simp only [beats, not_or, not_and, not_lt]

theorem beats_center (σ : Int) (c q : Point) : ¬ beats σ c c q := by
  rw [not_beats_iff]
  have h : vsub c c = ⟨0, 0⟩ := by simp [vsub]
  rw [h, vcross_zero_right]
  refine ⟨by simp, fun _ => ?_⟩
  rw [dist_vsub c c, h]
  have h0 : vdot (⟨0, 0⟩ : Point) (⟨0, 0⟩ : Point) = 0 := by simp [vdot]
  rw [h0]
  exact distanceSquared_nonneg c q

/-- Transitivity of survival: if probe `p` beats candidate `q` while
probe `m` did not beat `q`, then `m` does not beat `p` either — provided
all three points lie in a closed `σ`-half-plane through `c` with no
antipodal pair.  This is the order property that makes the wrapping scan's
tournament pick a globally unbeaten candidate. -/
theorem beats_trans (σ : Int) (hσ : σ = 1 ∨ σ = -1) (c : Point) (S : List Point)
    (v : Point) (hv : v ≠ ⟨0, 0⟩)
    (hvS : ∀ x ∈ S, 0 ≤ σ * vcross v (vsub x c))
    (hna : ∀ x ∈ S, ∀ y ∈ S,
      vcross (vsub x c) (vsub y c) = 0 → 0 ≤ vdot (vsub x c) (vsub y c))
    (p q m : Point) (hp : p ∈ S) (hq : q ∈ S) (hm : m ∈ S)
    (hpq : beats σ c p q) (hmq : ¬ beats σ c m q) : ¬ beats σ c m p := by
  rw [not_beats_iff] at hmq ⊢
  obtain ⟨hX, hXd⟩ := hmq
  simp only [beats] at hpq
  have hB : 0 ≤ σ * vcross v (vsub p c) := hvS p hp
  have hC : 0 ≤ σ * vcross v (vsub m c) := hvS m hm
  have hA : 0 ≤ σ * vcross v (vsub q c) := hvS q hq
  have hVpos : 0 < vdot v v := vdot_self_pos v hv
  set q' := vsub q c with hq'
  set p' := vsub p c with hp'
  set m' := vsub m c with hm'
  rcases hpq with hY | ⟨hY0, hdqp⟩
  · -- strict case: p strictly more counterclockwise than q
    have hqne : q' ≠ ⟨0, 0⟩ := by
      intro h
      rw [h, vcross_zero_left] at hY
      simp at hY
    have hpne : p' ≠ ⟨0, 0⟩ := by
      intro h
      rw [h, vcross_zero_right] at hY
      simp at hY
    constructor
    · -- first conjunct: 0 ≤ σ * vcross p' m'
      have hE1 : (σ * vcross v q') * (σ * vcross p' m') =
          (σ * vcross v p') * (σ * vcross q' m') -
            (σ * vcross v m') * (σ * vcross q' p') := by
        have hpl := pluecker v q' p' m'
        linear_combination (σ ^ 2) * hpl
      rcases lt_or_eq_of_le hA with hApos | hAzero
      · nlinarith [hE1, mul_nonneg hB hX,
          mul_nonpos_of_nonneg_of_nonpos hC (le_of_lt hY)]
      · have hvq : vcross v q' = 0 := by
          rcases hσ with rfl | rfl <;> omega
        have hq2pos : 0 < vdot q' q' := vdot_self_pos q' hqne
        have hdq : vdot v q' ≠ 0 := by
          intro h0
          have hl := lagrange v q'
          rw [hvq, h0] at hl
          nlinarith
        rcases lt_or_gt_of_ne hdq with hdqneg | hdqpos
        · -- backward frame-collinear candidate
          have hE2 : vcross v m' * vdot q' q' = vdot v q' * vcross q' m' := by
            have h := cross_dot_resolve v q' m'
            rw [hvq] at h
            linarith
          have hE2s : (σ * vcross v m') * vdot q' q' =
              vdot v q' * (σ * vcross q' m') := by
            linear_combination σ * hE2
          have hXz : σ * vcross q' m' = 0 := by
            nlinarith [hE2s, hC, hX]
          have hCz : σ * vcross v m' = 0 := by
            nlinarith [hE2s, hC, hX]
          have hvm : vcross v m' = 0 := by
            rcases hσ with rfl | rfl <;> omega
          have hqm : vcross q' m' = 0 := by
            rcases hσ with rfl | rfl <;> omega
          by_cases hmz : m' = ⟨0, 0⟩
          · rw [hmz, vcross_zero_right]
            simp
          · have hdotqm : 0 < vdot q' m' :=
              collinear_dot_pos q' m' hqne hmz hqm (hna q hq m hm hqm)
            have hvmdot : vdot v m' < 0 := by
              have h := dot_rotation q' v m'
              have hsw : vcross q' v = -vcross v q' := vcross_swap q' v
              rw [hqm, hsw, hvq] at h
              have hvqc : vdot q' v = vdot v q' := vdot_comm q' v
              nlinarith [h]
            have hE3 : vcross p' m' * vdot v v = -vcross v p' * vdot v m' := by
              have h := cross_dot_resolve p' v m'
              rw [hvm] at h
              have hsw : vcross p' v = -vcross v p' := vcross_swap p' v
              rw [hsw] at h
              linarith
            have hE3s : (σ * vcross p' m') * vdot v v =
                -(σ * vcross v p') * vdot v m' := by
              linear_combination σ * hE3
            nlinarith [hE3s, mul_nonneg hB (le_of_lt (neg_pos.mpr hvmdot))]
        · -- forward frame-collinear candidate: impossible
          exfalso
          have hE2 : vcross v p' * vdot q' q' = vdot v q' * vcross q' p' := by
            have h := cross_dot_resolve v q' p'
            rw [hvq] at h
            linarith
          have hE2s : (σ * vcross v p') * vdot q' q' =
              vdot v q' * (σ * vcross q' p') := by
            linear_combination σ * hE2
          nlinarith [hE2s, hB, mul_pos hdqpos (neg_pos.mpr hY)]
    · -- second conjunct
      intro hpm0
      by_cases hmz : m' = ⟨0, 0⟩
      · rw [dist_vsub, dist_vsub, ← hm', ← hp', hmz]
        have := vdot_self_nonneg p'
        simpa [vdot] using this
      · exfalso
        have hdotpm : 0 < vdot p' m' :=
          collinear_dot_pos p' m' hpne hmz hpm0 (hna p hp m hm hpm0)
        have hp2pos : 0 < vdot p' p' := vdot_self_pos p' hpne
        have hE4 : vcross q' m' * vdot p' p' = vcross q' p' * vdot p' m' := by
          have h := cross_dot_resolve q' p' m'
          rw [hpm0] at h
          linarith
        have hE4s : (σ * vcross q' m') * vdot p' p' =
            (σ * vcross q' p') * vdot p' m' := by
          linear_combination σ * hE4
        nlinarith [hE4s, hX, mul_pos (neg_pos.mpr hY) hdotpm]
  · -- collinear-farther case
    rw [dist_vsub, dist_vsub, ← hq', ← hp'] at hdqp
    have hpne : p' ≠ ⟨0, 0⟩ := by
      intro h
      rw [h] at hdqp
      have := vdot_self_nonneg q'
      simp [vdot] at hdqp
      nlinarith [hdqp, this]
    by_cases hqz : q' = ⟨0, 0⟩
    · have hqm0 : vcross q' m' = 0 := by rw [hqz, vcross_zero_left]
      have hdm := hXd hqm0
      rw [dist_vsub, dist_vsub, ← hq', ← hm', hqz] at hdm
      have hmz : m' = ⟨0, 0⟩ := by
        apply vdot_self_eq_zero
        have h0 : vdot (⟨0, 0⟩ : Point) (⟨0, 0⟩ : Point) = 0 := by simp [vdot]
        have := vdot_self_nonneg m'
        omega
      constructor
      · rw [hmz, vcross_zero_right]
        simp
      · intro _
        rw [dist_vsub, dist_vsub, ← hm', ← hp', hmz]
        have h0 : vdot (⟨0, 0⟩ : Point) (⟨0, 0⟩ : Point) = 0 := by simp [vdot]
        have := vdot_self_nonneg p'
        omega
    · have hdotqp : 0 < vdot q' p' :=
        collinear_dot_pos q' p' hqz hpne hY0 (hna q hq p hp hY0)
      have hq2pos : 0 < vdot q' q' := vdot_self_pos q' hqz
      have hE5 : vcross p' m' * vdot q' q' = vdot p' q' * vcross q' m' := by
        have h := cross_dot_resolve p' q' m'
        have hsw : vcross p' q' = -vcross q' p' := vcross_swap p' q'
        rw [hsw, hY0] at h
        linarith
      have hE5s : (σ * vcross p' m') * vdot q' q' =
          vdot p' q' * (σ * vcross q' m') := by
        linear_combination σ * hE5
      have hdotpq : 0 < vdot p' q' := by
        rw [vdot_comm]
        exact hdotqp
      constructor
      · nlinarith [hE5s, hX, hdotpq]
      · intro hpm0
        have hqm0 : vcross q' m' = 0 := by
          rw [hpm0] at hE5
          simp only [zero_mul] at hE5
          rcases mul_eq_zero.mp hE5.symm with h | h
          · omega
          · exact h
        have hdm := hXd hqm0
        rw [dist_vsub, dist_vsub, ← hq', ← hm'] at hdm
        rw [dist_vsub, dist_vsub, ← hm', ← hp']
        omega

theorem beats_irrefl (σ : Int) (c x : Point) : ¬ beats σ c x x := by
  rw [not_beats_iff]
  have h : vcross (vsub x c) (vsub x c) = 0 := by
    simp only [vcross]
    ring
  rw [h]
  simp

theorem beats_asymm (σ : Int) (c p q : Point) (h : beats σ c p q) : ¬ beats σ c q p := by
  rw [not_beats_iff]
  have hsw : vcross (vsub p c) (vsub q c) = -vcross (vsub q c) (vsub p c) :=
    vcross_swap _ _
  rcases h with h | ⟨h0, hd⟩
  · constructor
    · rw [hsw]
      nlinarith
    · intro hc
      rw [hc] at hsw
      have h0 : vcross (vsub q c) (vsub p c) = 0 := by omega
      rw [h0] at h
      simp at h
  · rw [hsw, h0]
    exact ⟨by simp, fun _ => le_of_lt hd⟩

/-- The generic tournament invariant for a candidate scan: folding a step
function that replaces the candidate exactly when the probe beats it,
starting from a candidate that every index of `M` failed to beat, produces
a candidate that no probe of `M`, the scanned list, or the start beats. -/
theorem selectFold_spec (σ : Int) (hσ : σ = 1 ∨ σ = -1) (pts : List Point) (cur : Nat)
    (v : Point) (hv : v ≠ ⟨0, 0⟩)
    (hvS : ∀ x ∈ pts, 0 ≤ σ * vcross v (vsub x (pget pts cur)))
    (hna : ∀ x ∈ pts, ∀ y ∈ pts,
      vcross (vsub x (pget pts cur)) (vsub y (pget pts cur)) = 0 →
        0 ≤ vdot (vsub x (pget pts cur)) (vsub y (pget pts cur)))
    (stp : Nat → Nat → Nat)
    (h1 : ∀ next i, next ≠ cur → i < pts.length →
      beats σ (pget pts cur) (pget pts i) (pget pts next) → stp next i = i)
    (h2 : ∀ next i, next ≠ cur → i < pts.length →
      ¬ beats σ (pget pts cur) (pget pts i) (pget pts next) → stp next i = next) :
    ∀ (L : List Nat) (next0 : Nat) (M : List Nat),
      (∀ i ∈ L, i < pts.length) → next0 < pts.length → next0 ≠ cur →
      (∀ j ∈ M, j < pts.length) →
      (∀ j ∈ M, ¬ beats σ (pget pts cur) (pget pts j) (pget pts next0)) →
      (L.foldl stp next0 = next0 ∨ L.foldl stp next0 ∈ L) ∧
        L.foldl stp next0 ≠ cur ∧ L.foldl stp next0 < pts.length ∧
        ∀ j, (j ∈ M ∨ j ∈ L ∨ j = next0) →
          ¬ beats σ (pget pts cur) (pget pts j) (pget pts (L.foldl stp next0)) := by
  intro L
  induction L with
  | nil =>
    intro next0 M _ hn0 hne hM hMu
    refine ⟨Or.inl rfl, hne, hn0, ?_⟩
    intro j hj
    rcases hj with hj | hj | rfl
    · exact hMu j hj
    · exact absurd hj (List.not_mem_nil j)
    · exact beats_irrefl σ _ _
  | cons i L ih =>
    intro next0 M hL hn0 hne hM hMu
    have hiL : i < pts.length := hL i (List.mem_cons_self _ _)
    simp only [List.foldl_cons]
    by_cases hb : beats σ (pget pts cur) (pget pts i) (pget pts next0)
    · have hicur : i ≠ cur := by
        intro hc
        rw [hc] at hb
        exact beats_center σ _ _ hb
      rw [h1 next0 i hne hiL hb]
      have hM' : ∀ j ∈ next0 :: M, j < pts.length := by
        intro j hj
        rcases List.mem_cons.mp hj with rfl | hj
        · exact hn0
        · exact hM j hj
      have hMu' : ∀ j ∈ next0 :: M,
          ¬ beats σ (pget pts cur) (pget pts j) (pget pts i) := by
        intro j hj
        rcases List.mem_cons.mp hj with rfl | hj
        · exact beats_asymm σ _ _ _ hb
        · exact beats_trans σ hσ (pget pts cur) pts v hv hvS hna
            (pget pts i) (pget pts next0) (pget pts j)
            (pget_mem pts i hiL) (pget_mem pts next0 hn0) (pget_mem pts j (hM j hj))
            hb (hMu j hj)
      obtain ⟨hr1, hr2, hr3, hr4⟩ := ih i (next0 :: M)
        (fun x hx => hL x (List.mem_cons_of_mem _ hx)) hiL hicur hM' hMu'
      refine ⟨?_, hr2, hr3, ?_⟩
      · rcases hr1 with h | h
        · exact Or.inr (by rw [h]; exact List.mem_cons_self _ _)
        · exact Or.inr (List.mem_cons_of_mem _ h)
      · intro j hj
        rcases hj with hj | hj | rfl
        · exact hr4 j (Or.inl (List.mem_cons_of_mem _ hj))
        · rcases List.mem_cons.mp hj with rfl | hj
          · exact hr4 j (Or.inr (Or.inr rfl))
          · exact hr4 j (Or.inr (Or.inl hj))
        · exact hr4 j (Or.inl (List.mem_cons_self _ _))
    · rw [h2 next0 i hne hiL hb]
      have hM' : ∀ j ∈ i :: M, j < pts.length := by
        intro j hj
        rcases List.mem_cons.mp hj with rfl | hj
        · exact hiL
        · exact hM j hj
      have hMu' : ∀ j ∈ i :: M,
          ¬ beats σ (pget pts cur) (pget pts j) (pget pts next0) := by
        intro j hj
        rcases List.mem_cons.mp hj with rfl | hj
        · exact hb
        · exact hMu j hj
      obtain ⟨hr1, hr2, hr3, hr4⟩ := ih next0 (i :: M)
        (fun x hx => hL x (List.mem_cons_of_mem _ hx)) hn0 hne hM' hMu'
      refine ⟨?_, hr2, hr3, ?_⟩
      · rcases hr1 with h | h
        · exact Or.inl h
        · exact Or.inr (List.mem_cons_of_mem _ h)
      · intro j hj
        rcases hj with hj | hj | rfl
        · exact hr4 j (Or.inl (List.mem_cons_of_mem _ hj))
        · rcases List.mem_cons.mp hj with rfl | hj
          · exact hr4 j (Or.inl (List.mem_cons_self _ _))
          · exact hr4 j (Or.inr (Or.inl hj))
        · exact hr4 j (Or.inr (Or.inr rfl))

theorem gwStep_beats (pts : List Point) (cur next i : Nat) (hne : next ≠ cur)
    (hb : beats 1 (pget pts cur) (pget pts i) (pget pts next)) :
    gwStep pts cur next i = i := by
  have hcr := crossProduct_eq_vcross (pget pts cur) (pget pts next) (pget pts i)
  rw [beats] at hb
  simp only [gwStep, if_neg hne]
  split
  · rfl
  · split
    · split
      · rfl
      · omega
    · omega

theorem gwStep_not_beats (pts : List Point) (cur next i : Nat) (hne : next ≠ cur)
    (hb : ¬ beats 1 (pget pts cur) (pget pts i) (pget pts next)) :
    gwStep pts cur next i = next := by
  have hcr := crossProduct_eq_vcross (pget pts cur) (pget pts next) (pget pts i)
  rw [beats] at hb
  simp only [gwStep, if_neg hne]
  split
  · omega
  · split
    · split
      · omega
      · rfl
    · rfl

theorem jmStep_beats (pts : List Point) (cur next i : Nat) (hne : next ≠ cur)
    (hb : beats (-1) (pget pts cur) (pget pts i) (pget pts next)) :
    jmStep pts cur next i = i := by
  have hcr := crossProduct_eq_vcross (pget pts cur) (pget pts next) (pget pts i)
  by_cases hic : i = cur
  · exfalso
    rw [hic] at hb
    exact beats_center _ _ _ hb
  · rw [beats] at hb
    simp only [jmStep, if_neg hic, if_neg hne]
    split
    · rfl
    · split
      · split
        · rfl
        · omega
      · omega

theorem jmStep_not_beats (pts : List Point) (cur next i : Nat) (hne : next ≠ cur)
    (hb : ¬ beats (-1) (pget pts cur) (pget pts i) (pget pts next)) :
    jmStep pts cur next i = next := by
  have hcr := crossProduct_eq_vcross (pget pts cur) (pget pts next) (pget pts i)
  by_cases hic : i = cur
  · simp [jmStep, hic]
  · rw [beats] at hb
    simp only [jmStep, if_neg hic, if_neg hne]
    split
    · omega
    · split
      · split
        · omega
        · rfl
      · rfl

/-- `gwSelect` picks a candidate index, different from the current one,
that no point of the input beats. -/
theorem gwSelect_spec (pts : List Point) (cur : Nat) (v : Point) (hv : v ≠ ⟨0, 0⟩)
    (hvS : ∀ x ∈ pts, 0 ≤ vcross v (vsub x (pget pts cur)))
    (hna : ∀ x ∈ pts, ∀ y ∈ pts,
      vcross (vsub x (pget pts cur)) (vsub y (pget pts cur)) = 0 →
        0 ≤ vdot (vsub x (pget pts cur)) (vsub y (pget pts cur)))
    (h2 : 2 ≤ pts.length) (hcur : cur < pts.length) :
    gwSelect pts cur < pts.length ∧ gwSelect pts cur ≠ cur ∧
      ∀ j, j < pts.length →
        ¬ beats 1 (pget pts cur) (pget pts j) (pget pts (gwSelect pts cur)) := by
  have hvS' : ∀ x ∈ pts, 0 ≤ 1 * vcross v (vsub x (pget pts cur)) := by
    intro x hx
    simpa using hvS x hx
  have hgw1 : ∀ next i, next ≠ cur → i < pts.length →
      beats 1 (pget pts cur) (pget pts i) (pget pts next) → gwStep pts cur next i = i :=
    fun next i hne _ hb => gwStep_beats pts cur next i hne hb
  have hgw2 : ∀ next i, next ≠ cur → i < pts.length →
      ¬ beats 1 (pget pts cur) (pget pts i) (pget pts next) → gwStep pts cur next i = next :=
    fun next i hne _ hb => gwStep_not_beats pts cur next i hne hb
  rw [gwSelect]
  by_cases hc0 : cur = 0
  · subst hc0
    have hn1 : pts.length - 1 = (pts.length - 2) + 1 := by omega
    rw [hn1, List.range'_succ]
    simp only [List.foldl_cons]
    have hstep1 : gwStep pts 0 0 1 = 1 := by simp [gwStep]
    rw [hstep1]
    obtain ⟨hr1, hr2, hr3, hr4⟩ := selectFold_spec 1 (Or.inl rfl) pts 0 v hv hvS' hna
      (gwStep pts 0) hgw1 hgw2 (List.range' 2 (pts.length - 2)) 1 []
      (fun i hi => by
        have := List.mem_range'_1.mp hi
        omega)
      (by omega) (by omega)
      (fun j hj => absurd hj (List.not_mem_nil j))
      (fun j hj => absurd hj (List.not_mem_nil j))
    refine ⟨hr3, hr2, ?_⟩
    intro j hj
    by_cases hj0 : j = 0
    · subst hj0
      exact beats_center 1 _ _
    · by_cases hj1 : j = 1
      · exact hr4 j (Or.inr (Or.inr hj1))
      · exact hr4 j (Or.inr (Or.inl (List.mem_range'_1.mpr ⟨by omega, by omega⟩)))
  · obtain ⟨hr1, hr2, hr3, hr4⟩ := selectFold_spec 1 (Or.inl rfl) pts cur v hv hvS' hna
      (gwStep pts cur) hgw1 hgw2 (List.range' 1 (pts.length - 1)) 0 []
      (fun i hi => by
        have := List.mem_range'_1.mp hi
        omega)
      (by omega) (fun h => hc0 h.symm)
      (fun j hj => absurd hj (List.not_mem_nil j))
      (fun j hj => absurd hj (List.not_mem_nil j))
    refine ⟨hr3, hr2, ?_⟩
    intro j hj
    by_cases hj0 : j = 0
    · exact hr4 j (Or.inr (Or.inr hj0))
    · exact hr4 j (Or.inr (Or.inl (List.mem_range'_1.mpr ⟨by omega, by omega⟩)))

/-- `jmSelect` picks a candidate index, different from the current one,
that no point of the input beats (clockwise convention). -/
theorem jmSelect_spec (pts : List Point) (cur : Nat) (v : Point) (hv : v ≠ ⟨0, 0⟩)
    (hvS : ∀ x ∈ pts, 0 ≤ (-1) * vcross v (vsub x (pget pts cur)))
    (hna : ∀ x ∈ pts, ∀ y ∈ pts,
      vcross (vsub x (pget pts cur)) (vsub y (pget pts cur)) = 0 →
        0 ≤ vdot (vsub x (pget pts cur)) (vsub y (pget pts cur)))
    (h2 : 2 ≤ pts.length) (hcur : cur < pts.length) :
    jmSelect pts cur < pts.length ∧ jmSelect pts cur ≠ cur ∧
      ∀ j, j < pts.length →
        ¬ beats (-1) (pget pts cur) (pget pts j) (pget pts (jmSelect pts cur)) := by
  have hjm1 : ∀ next i, next ≠ cur → i < pts.length →
      beats (-1) (pget pts cur) (pget pts i) (pget pts next) → jmStep pts cur next i = i :=
    fun next i hne _ hb => jmStep_beats pts cur next i hne hb
  have hjm2 : ∀ next i, next ≠ cur → i < pts.length →
      ¬ beats (-1) (pget pts cur) (pget pts i) (pget pts next) →
        jmStep pts cur next i = next :=
    fun next i hne _ hb => jmStep_not_beats pts cur next i hne hb
  rw [jmSelect]
  by_cases hc0 : cur = 0
  · subst hc0
    have hn1 : pts.length = ((pts.length - 2) + 1) + 1 := by omega
    rw [List.range_eq_range', hn1, List.range'_succ, List.range'_succ]
    simp only [List.foldl_cons]
    have hstep0 : jmStep pts 0 0 (0 + 0) = 0 := by simp [jmStep]
    have hstep1 : jmStep pts 0 0 (0 + 1) = 1 := by simp [jmStep]
    rw [hstep0, hstep1]
    obtain ⟨hr1, hr2, hr3, hr4⟩ := selectFold_spec (-1) (Or.inr rfl) pts 0 v hv hvS hna
      (jmStep pts 0) hjm1 hjm2 (List.range' (0 + 1 + 1) (pts.length - 2)) 1 []
      (fun i hi => by
        have := List.mem_range'_1.mp hi
        omega)
      (by omega) (by omega)
      (fun j hj => absurd hj (List.not_mem_nil j))
      (fun j hj => absurd hj (List.not_mem_nil j))
    refine ⟨by omega, hr2, ?_⟩
    intro j hj
    have hj' : j < pts.length := by omega
    by_cases hj0 : j = 0
    · subst hj0
      exact beats_center (-1) _ _
    · by_cases hj1 : j = 1
      · exact hr4 j (Or.inr (Or.inr hj1))
      · exact hr4 j (Or.inr (Or.inl (List.mem_range'_1.mpr ⟨by omega, by omega⟩)))
  · obtain ⟨hr1, hr2, hr3, hr4⟩ := selectFold_spec (-1) (Or.inr rfl) pts cur v hv hvS hna
      (jmStep pts cur) hjm1 hjm2 (List.range pts.length) 0 []
      (fun i hi => List.mem_range.mp hi)
      (by omega) (fun h => hc0 h.symm)
      (fun j hj => absurd hj (List.not_mem_nil j))
      (fun j hj => absurd hj (List.not_mem_nil j))
    refine ⟨hr3, hr2, ?_⟩
    intro j hj
    exact hr4 j (Or.inr (Or.inl (List.mem_range.mpr hj)))

theorem vsub_ne_zero (a b : Point) (h : a ≠ b) : vsub a b ≠ ⟨0, 0⟩ := by
  intro hc
  apply h
  obtain ⟨ax, ay⟩ := a
  obtain ⟨bx, by'⟩ := b
  simp only [vsub, Point.mk.injEq] at hc ⊢
  omega

theorem pget_inj (pts : List Point) (hnd : pts.Nodup) (i j : Nat)
    (hi : i < pts.length) (hj : j < pts.length) (h : pget pts i = pget pts j) : i = j := by
  rw [pget, pget, List.getD_eq_getElem pts ⟨0, 0⟩ hi, List.getD_eq_getElem pts ⟨0, 0⟩ hj] at h
  exact (List.Nodup.getElem_inj_iff hnd).mp h

/-- Being unbeaten in both directions forces equality (under the
no-antipodal property at `c`). -/
theorem unbeaten_eq (σ : Int) (hσ : σ = 1 ∨ σ = -1) (c : Point) (a b : Point)
    (hna : vcross (vsub a c) (vsub b c) = 0 → 0 ≤ vdot (vsub a c) (vsub b c))
    (hab : ¬ beats σ c a b) (hba : ¬ beats σ c b a) : a = b := by
  rw [not_beats_iff] at hab hba
  obtain ⟨h1, h2⟩ := hab
  obtain ⟨h3, h4⟩ := hba
  have hsw : vcross (vsub a c) (vsub b c) = -vcross (vsub b c) (vsub a c) :=
    vcross_swap _ _
  have hc0 : vcross (vsub b c) (vsub a c) = 0 := by
    rcases hσ with rfl | rfl <;> omega
  have hc0' : vcross (vsub a c) (vsub b c) = 0 := by omega
  have hd1 := h2 hc0
  have hd2 := h4 hc0'
  have hdd : distanceSquared c a = distanceSquared c b := le_antisymm hd1 hd2
  rw [dist_vsub, dist_vsub] at hdd
  have hveq := collinear_same_ray_eq (vsub a c) (vsub b c) hc0' (hna hc0') hdd
  obtain ⟨ax, ay⟩ := a
  obtain ⟨bx, by'⟩ := b
  simp only [vsub, Point.mk.injEq] at hveq ⊢
  omega

/-- The invariant available at every current vertex of the wrapping loop:
all points lie in a closed `σ`-half-plane through the vertex, and no two
points are in exactly opposite directions from it. -/
def goodCur (σ : Int) (S : List Point) (w : Point) : Prop :=
  (∃ v : Point, v ≠ ⟨0, 0⟩ ∧ ∀ x ∈ S, 0 ≤ σ * vcross v (vsub x w)) ∧
  ∀ x ∈ S, ∀ y ∈ S,
    vcross (vsub x w) (vsub y w) = 0 → 0 ≤ vdot (vsub x w) (vsub y w)

theorem goodCur_mono (σ : Int) (S S' : List Point) (hsub : ∀ x ∈ S', x ∈ S)
    (w : Point) (h : goodCur σ S w) : goodCur σ S' w := by
  obtain ⟨⟨v, hv0, hvS⟩, hna⟩ := h
  exact ⟨⟨v, hv0, fun x hx => hvS x (hsub x hx)⟩,
    fun x hx y hy => hna x (hsub x hx) y (hsub y hy)⟩

/-- The lowest-then-leftmost point of the input satisfies the loop
invariant (base case of the wrapping loop). -/
theorem goodCur_base (σ : Int) (hσ : σ = 1 ∨ σ = -1) (S : List Point) (b : Point)
    (hmin : ∀ q ∈ S, b.y < q.y ∨ (b.y = q.y ∧ b.x ≤ q.x)) : goodCur σ S b := by
  constructor
  · refine ⟨⟨σ, 0⟩, ?_, ?_⟩
    · intro hc
      rw [Point.mk.injEq] at hc
      rcases hσ with rfl | rfl <;> omega
    · intro x hx
      have h := hmin x hx
      have hy : 0 ≤ (vsub x b).y := by
        simp only [vsub]
        rcases h with h | ⟨h1, h2⟩ <;> omega
      have hexp : σ * vcross ⟨σ, 0⟩ (vsub x b) = σ * σ * (vsub x b).y := by
        simp only [vcross]
        ring
      rw [hexp]
      rcases hσ with rfl | rfl <;> nlinarith
  · intro x hx y hy hc
    have hxm := hmin x hx
    have hym := hmin y hy
    obtain ⟨bx, byy⟩ := b
    obtain ⟨xx, xy⟩ := x
    obtain ⟨yx, yy⟩ := y
    simp only [vsub, vcross, vdot] at hc ⊢
    dsimp only at hxm hym
    have hx1 : 0 ≤ xy - byy := by rcases hxm with h | ⟨h1, h2⟩ <;> omega
    have hy1 : 0 ≤ yy - byy := by rcases hym with h | ⟨h1, h2⟩ <;> omega
    rcases lt_or_eq_of_le hy1 with hy2 | hy2
    · have key : ((xx - bx) * (yx - bx) + (xy - byy) * (yy - byy)) * (yy - byy)
          = (xy - byy) * ((yx - bx) ^ 2 + (yy - byy) ^ 2) +
            (yx - bx) * ((xx - bx) * (yy - byy) - (xy - byy) * (yx - bx)) := by
        ring
      rw [hc, mul_zero, add_zero] at key
      nlinarith [key,
        mul_nonneg hx1 (add_nonneg (sq_nonneg (yx - bx)) (sq_nonneg (yy - byy)))]
    · have h0 : yy - byy = 0 := by omega
      have hyx : 0 ≤ yx - bx := by rcases hym with h | ⟨h1, h2⟩ <;> omega
      have hc' : (xy - byy) * (yx - bx) = 0 := by
        linear_combination -hc + (xx - bx) * h0
      rcases mul_eq_zero.mp hc' with h | h
      · have hxx : 0 ≤ xx - bx := by rcases hxm with h1 | ⟨h1, h2⟩ <;> omega
        rw [h, zero_mul]
        simpa using mul_nonneg hxx hyx
      · rw [h, mul_zero]
        have h1 : (xy - byy) * (yy - byy) = 0 := by rw [h0, mul_zero]
        rw [h1]
        norm_num

/-- The full certificate the wrapping loop's selection provides for a
chosen edge `c → w`: no point of `S` beats `w` as seen from `c`. -/
def seesAll (σ : Int) (c w : Point) (S : List Point) : Prop :=
  ∀ p ∈ S, ¬ beats σ c p w

/-- A point that is exactly collinear with a selected edge `c → w` lies on
the closed backward ray at `w`. -/
theorem sees_backward (σ : Int) (c w x : Point) (hnb : ¬ beats σ c x w)
    (hcross : vcross (vsub w c) (vsub x w) = 0) :
    vdot (vsub w c) (vsub x w) ≤ 0 := by
  rw [not_beats_iff] at hnb
  obtain ⟨h1, h2⟩ := hnb
  have hshift := vcross_base_shift c w x
  have hc0 : vcross (vsub w c) (vsub x c) = 0 := by omega
  have hd := h2 hc0
  rw [dist_vsub, dist_vsub] at hd
  have hlag := lagrange (vsub w c) (vsub x c)
  rw [hc0] at hlag
  have hsplit : vdot (vsub w c) (vsub x w) =
      vdot (vsub w c) (vsub x c) - vdot (vsub w c) (vsub w c) := by
    simp only [vdot, vsub]
    ring
  rw [hsplit]
  nlinarith [hlag, hd, vdot_self_nonneg (vsub w c), vdot_self_nonneg (vsub x c)]

/-- Frame propagation: after the loop selects edge `c → w`, the new
current vertex `w` satisfies the loop invariant. -/
theorem goodCur_step (σ : Int) (hσ : σ = 1 ∨ σ = -1) (S : List Point) (c w : Point)
    (hwc : w ≠ c) (hsee : seesAll σ c w S) : goodCur σ S w := by
  have hv0 : vsub w c ≠ ⟨0, 0⟩ := vsub_ne_zero w c hwc
  have hframe : ∀ x ∈ S, 0 ≤ σ * vcross (vsub w c) (vsub x w) := by
    intro x hx
    have h := (not_beats_iff σ c x w).mp (hsee x hx)
    rw [vcross_base_shift]
    exact h.1
  have hback : ∀ x ∈ S, vcross (vsub w c) (vsub x w) = 0 →
      vdot (vsub w c) (vsub x w) ≤ 0 :=
    fun x hx => sees_backward σ c w x (hsee x hx)
  refine ⟨⟨vsub w c, hv0, hframe⟩, ?_⟩
  intro x hx y hy hcxy
  have hVpos : 0 < vdot (vsub w c) (vsub w c) := vdot_self_pos _ hv0
  have hAx := hframe x hx
  have hAy := hframe y hy
  by_cases hcx : vcross (vsub w c) (vsub x w) = 0
  · have hDx := hback x hx hcx
    by_cases hcy : vcross (vsub w c) (vsub y w) = 0
    · have hDy := hback y hy hcy
      have hrot := dot_rotation (vsub w c) (vsub x w) (vsub y w)
      rw [hcx, hcy] at hrot
      nlinarith [hrot, mul_nonneg (neg_nonneg.mpr hDx) (neg_nonneg.mpr hDy)]
    · by_cases hxz : vsub x w = ⟨0, 0⟩
      · rw [hxz]
        simp [vdot]
      · exfalso
        have hres := cross_dot_resolve (vsub w c) (vsub x w) (vsub y w)
        rw [hcx, hcxy] at hres
        have hx2 : 0 < vdot (vsub x w) (vsub x w) := vdot_self_pos _ hxz
        have : vcross (vsub w c) (vsub y w) * vdot (vsub x w) (vsub x w) = 0 := by
          linarith
        rcases mul_eq_zero.mp this with h | h
        · exact hcy h
        · omega
  · by_cases hcy : vcross (vsub w c) (vsub y w) = 0
    · by_cases hyz : vsub y w = ⟨0, 0⟩
      · rw [hyz]
        simp [vdot]
      · exfalso
        have hcyx : vcross (vsub y w) (vsub x w) = 0 := by
          have := vcross_swap (vsub x w) (vsub y w)
          omega
        have hres := cross_dot_resolve (vsub w c) (vsub y w) (vsub x w)
        rw [hcy, hcyx] at hres
        have hy2 : 0 < vdot (vsub y w) (vsub y w) := vdot_self_pos _ hyz
        have : vcross (vsub w c) (vsub x w) * vdot (vsub y w) (vsub y w) = 0 := by
          linarith
        rcases mul_eq_zero.mp this with h | h
        · exact hcx h
        · omega
    · have hxz : vsub x w ≠ ⟨0, 0⟩ := by
        intro h
        rw [h, vcross_zero_right] at hcx
        exact hcx rfl
      have hx2 : 0 < vdot (vsub x w) (vsub x w) := vdot_self_pos _ hxz
      have hres := cross_dot_resolve (vsub w c) (vsub x w) (vsub y w)
      rw [hcxy] at hres
      have hress : (σ * vcross (vsub w c) (vsub y w)) * vdot (vsub x w) (vsub x w) =
          (σ * vcross (vsub w c) (vsub x w)) * vdot (vsub x w) (vsub y w) := by
        linear_combination σ * hres
      have hAx' : 0 < σ * vcross (vsub w c) (vsub x w) := by
        rcases lt_or_eq_of_le hAx with h | h
        · exact h
        · exfalso
          apply hcx
          rcases hσ with rfl | rfl <;> omega
      have hAy' : 0 < σ * vcross (vsub w c) (vsub y w) := by
        rcases lt_or_eq_of_le hAy with h | h
        · exact h
        · exfalso
          apply hcy
          rcases hσ with rfl | rfl <;> omega
      nlinarith [hress, mul_pos hAy' hx2]

/-- Two distinct vertices cannot both select the same next vertex: the
injectivity fact behind the closure of the wrapping loop. -/
theorem no_two_preds (σ : Int) (hσ : σ = 1 ∨ σ = -1) (w1 w2 z : Point)
    (h1 : vcross (vsub w2 w1) (vsub z w1) = 0 → 0 ≤ vdot (vsub w2 w1) (vsub z w1))
    (h2 : vcross (vsub w1 w2) (vsub z w2) = 0 → 0 ≤ vdot (vsub w1 w2) (vsub z w2))
    (hs1 : ¬ beats σ w1 w2 z) (hs2 : ¬ beats σ w2 w1 z)
    (hw12 : w1 ≠ w2) : False := by
  rw [not_beats_iff] at hs1 hs2
  obtain ⟨hc1, hd1⟩ := hs1
  obtain ⟨hc2, hd2⟩ := hs2
  have hda : vcross (vsub z w1) (vsub w2 w1) = -vcross (vsub z w1) (vsub z w2) := by
    simp only [vcross, vsub]
    ring
  have hdb : vcross (vsub z w2) (vsub w1 w2) = vcross (vsub z w1) (vsub z w2) := by
    simp only [vcross, vsub]
    ring
  have hab : vcross (vsub z w1) (vsub z w2) = 0 := by
    rcases hσ with rfl | rfl <;> omega
  have hcc1 : vcross (vsub z w1) (vsub w2 w1) = 0 := by omega
  have hcc2 : vcross (vsub z w2) (vsub w1 w2) = 0 := by omega
  have hdist1 := hd1 hcc1
  have hdist2 := hd2 hcc2
  rw [dist_vsub, dist_vsub] at hdist1 hdist2
  have hp := h1 (by
    have := vcross_swap (vsub w2 w1) (vsub z w1)
    omega)
  have hq := h2 (by
    have := vcross_swap (vsub w1 w2) (vsub z w2)
    omega)
  have hdz : vsub w2 w1 ≠ ⟨0, 0⟩ := vsub_ne_zero w2 w1 (fun h => hw12 h.symm)
  have hD : 0 < vdot (vsub w2 w1) (vsub w2 w1) := vdot_self_pos _ hdz
  have hpq : vdot (vsub w2 w1) (vsub z w1) - vdot (vsub w2 w1) (vsub z w2) =
      vdot (vsub w2 w1) (vsub w2 w1) := by
    simp only [vdot, vsub]
    ring
  have hlag1 : vdot (vsub z w1) (vsub z w1) * vdot (vsub w2 w1) (vsub w2 w1) =
      vdot (vsub w2 w1) (vsub z w1) ^ 2 := by
    have hl := lagrange (vsub w2 w1) (vsub z w1)
    have hcr : vcross (vsub w2 w1) (vsub z w1) = 0 := by
      have := vcross_swap (vsub w2 w1) (vsub z w1)
      omega
    rw [hcr] at hl
    have hcomm : vdot (vsub w2 w1) (vsub z w1) = vdot (vsub z w1) (vsub w2 w1) :=
      vdot_comm _ _
    nlinarith [hl]
  have hlag2 : vdot (vsub z w2) (vsub z w2) * vdot (vsub w2 w1) (vsub w2 w1) =
      vdot (vsub w2 w1) (vsub z w2) ^ 2 := by
    have hl := lagrange (vsub w2 w1) (vsub z w2)
    have hcr : vcross (vsub w2 w1) (vsub z w2) = 0 := by
      have hx : vcross (vsub w2 w1) (vsub z w2) = -vcross (vsub w1 w2) (vsub z w2) := by
        simp only [vcross, vsub]
        ring
      have hy : vcross (vsub w1 w2) (vsub z w2) = -vcross (vsub z w2) (vsub w1 w2) :=
        vcross_swap _ _
      omega
    rw [hcr] at hl
    have hcomm : vdot (vsub w2 w1) (vsub z w2) = vdot (vsub z w2) (vsub w2 w1) :=
      vdot_comm _ _
    nlinarith [hl]
  have hdd2' : vdot (vsub w1 w2) (vsub w1 w2) = vdot (vsub w2 w1) (vsub w2 w1) := by
    simp only [vdot, vsub]
    ring
  have hq' : vdot (vsub w2 w1) (vsub z w2) ≤ 0 := by
    have hqd : vdot (vsub w1 w2) (vsub z w2) = -(vdot (vsub w2 w1) (vsub z w2)) := by
      simp only [vdot, vsub]
      ring
    omega
  have hpbig : vdot (vsub w2 w1) (vsub w2 w1) ≤ vdot (vsub w2 w1) (vsub z w1) := by
    nlinarith [hlag1, hdist1, hp, hD]
  have hqbig : vdot (vsub w2 w1) (vsub z w2) ≤ -(vdot (vsub w2 w1) (vsub w2 w1)) := by
    nlinarith [hlag2, hdist2, hdd2', hq', hD]
  linarith [hpq, hpbig, hqbig, hD]

/-- What a candidate scan guarantees on any point list: from a current
vertex satisfying the loop invariant, it selects a different in-range
index whose point no input point beats. -/
def selSpec (σ : Int) (sel : List Point → Nat → Nat) (pts : List Point) : Prop :=
  ∀ cur, cur < pts.length → goodCur σ pts (pget pts cur) →
    sel pts cur < pts.length ∧ sel pts cur ≠ cur ∧
      seesAll σ (pget pts cur) (pget pts (sel pts cur)) pts

theorem gwSelect_selSpec (pts : List Point) (h2 : 2 ≤ pts.length) :
    selSpec 1 gwSelect pts := by
  intro cur hcur hgood
  obtain ⟨⟨v, hv0, hvS⟩, hna⟩ := hgood
  have hvS' : ∀ x ∈ pts, 0 ≤ vcross v (vsub x (pget pts cur)) := by
    intro x hx
    have := hvS x hx
    omega
  obtain ⟨ha, hb, hc⟩ := gwSelect_spec pts cur v hv0 hvS' hna h2 hcur
  refine ⟨ha, hb, ?_⟩
  intro p hp
  obtain ⟨i, hi, rfl⟩ := mem_pget pts p hp
  exact hc i hi

theorem jmSelect_selSpec (pts : List Point) (h2 : 2 ≤ pts.length) :
    selSpec (-1) jmSelect pts := by
  intro cur hcur hgood
  obtain ⟨⟨v, hv0, hvS⟩, hna⟩ := hgood
  obtain ⟨ha, hb, hc⟩ := jmSelect_spec pts cur v hv0 hvS hna h2 hcur
  refine ⟨ha, hb, ?_⟩
  intro p hp
  obtain ⟨i, hi, rfl⟩ := mem_pget pts p hp
  exact hc i hi

/-- Adjacent elements of the accumulated hull are related by selection
certificates. -/
def Chain (σ : Int) (S : List Point) : List Point → Prop
  | [] => True
  | [_] => True
  | a :: b :: rest => seesAll σ a b S ∧ Chain σ S (b :: rest)

theorem chain_append_one (σ : Int) (S : List Point) :
    ∀ (H : List Point) (z lastv : Point), Chain σ S H →
      H.getLast? = some lastv → seesAll σ lastv z S → Chain σ S (H ++ [z]) := by
  intro H
  induction H with
  | nil =>
    intro z lastv _ hlast _
    simp at hlast
  | cons a t ih =>
    intro z lastv hch hlast hsee
    cases t with
    | nil =>
      simp only [List.getLast?_singleton, Option.some.injEq] at hlast
      subst hlast
      exact ⟨hsee, trivial⟩
    | cons b t' =>
      obtain ⟨hab, hrest⟩ := hch
      rw [List.getLast?_cons_cons] at hlast
      exact ⟨hab, ih z lastv hrest hlast hsee⟩

theorem chain_getElem (σ : Int) (S : List Point) :
    ∀ (H : List Point), Chain σ S H →
      ∀ j, j + 1 < H.length → seesAll σ (pget H j) (pget H (j + 1)) S := by
  intro H
  induction H with
  | nil => intro _ j hj; simp at hj
  | cons a t ih =>
    intro hch j hj
    cases t with
    | nil => simp at hj
    | cons b t' =>
      obtain ⟨hab, hrest⟩ := hch
      cases j with
      | zero => exact hab
      | succ j' =>
        have hj' : j' + 1 < (b :: t').length := by
          simp only [List.length_cons] at hj ⊢
          omega
        have := ih hrest j' hj'
        simpa [pget, List.getD_cons_succ] using this

theorem chain_pred (σ : Int) (S : List Point) :
    ∀ (H : List Point), Chain σ S H → H.Nodup →
      ∀ z ∈ H, H.head? ≠ some z →
        ∃ a ∈ H, a ≠ z ∧ seesAll σ a z S ∧ H.getLast? ≠ some a := by
  intro H
  induction H with
  | nil => intro _ _ z hz; simp at hz
  | cons a t ih =>
    intro hch hnd z hz hzhead
    have hza : z ≠ a := by
      intro h
      exact hzhead (by rw [h]; rfl)
    have hzt : z ∈ t := by
      rcases List.mem_cons.mp hz with h | h
      · exact absurd h hza
      · exact h
    cases t with
    | nil => simp at hzt
    | cons b t' =>
      obtain ⟨hab, hrest⟩ := hch
      rcases List.nodup_cons.mp hnd with ⟨hanotin, hndt⟩
      rw [List.getLast?_cons_cons]
      by_cases hzb : z = b
      · refine ⟨a, List.mem_cons_self _ _, fun h => hza h.symm, by rw [hzb]; exact hab, ?_⟩
        intro hc
        have h2 := List.getLast?_eq_getLast (b :: t') (by simp)
        rw [h2, Option.some.injEq] at hc
        exact hanotin (hc ▸ List.getLast_mem (by simp))
      · have hzhead' : (b :: t').head? ≠ some z := by
          intro h
          rw [List.head?_cons, Option.some.injEq] at h
          exact hzb h.symm
        obtain ⟨a', ha', hne', hsee', hlast'⟩ := ih hrest hndt z hzt hzhead'
        exact ⟨a', List.mem_cons_of_mem _ ha', hne', hsee', hlast'⟩

theorem chain_goodCur (σ : Int) (hσ : σ = 1 ∨ σ = -1) (S : List Point)
    (H : List Point) (hch : Chain σ S H) (hnd : H.Nodup) (b0 : Point)
    (hhead : H.head? = some b0) (hb0 : goodCur σ S b0) :
    ∀ z ∈ H, goodCur σ S z := by
  intro z hz
  by_cases hzb : H.head? = some z
  · have h := hhead.symm.trans hzb
    rw [Option.some.injEq] at h
    rw [← h]
    exact hb0
  · obtain ⟨a, -, hne, hsee, -⟩ := chain_pred σ S H hch hnd z hz hzb
    exact goodCur_step σ hσ S a z (fun h => hne h.symm) hsee

theorem cross_rotation (v a b : Point) :
    vcross a b * vdot v v = vdot v a * vcross v b - vdot v b * vcross v a := by
  simp only [vcross, vdot]
  ring

/-- Collinearity with a fixed nonzero vector is transitive. -/
theorem collinear_transfer (d : Point) (hd : d ≠ ⟨0, 0⟩) (a b : Point)
    (ha : vcross d a = 0) (hb : vcross d b = 0) : vcross a b = 0 := by
  have h := cross_rotation d a b
  rw [ha, hb] at h
  have hD := vdot_self_pos d hd
  have h' : vcross a b * vdot d d = 0 := by rw [h]; ring
  rcases mul_eq_zero.mp h' with h'' | h''
  · exact h''
  · omega

theorem areCollinear_cons_iff (p0 p1 : Point) (rest : List Point) :
    areCollinear (p0 :: p1 :: rest) = true ↔ ∀ x ∈ rest, crossProduct p0 p1 x = 0 := by
  simp [areCollinear, List.all_eq_true]

/-- If every input point lies on one line through two distinct points, the
`areCollinear` check succeeds. -/
theorem all_on_line_areCollinear (pts : List Point) (u v : Point) (huv : u ≠ v)
    (hall : ∀ x ∈ pts, vcross (vsub v u) (vsub x u) = 0) :
    areCollinear pts = true := by
  cases pts with
  | nil => rfl
  | cons p0 t =>
    cases t with
    | nil => rfl
    | cons p1 rest =>
      rw [areCollinear_cons_iff]
      intro x hx
      have hd : vsub v u ≠ ⟨0, 0⟩ := vsub_ne_zero v u (fun h => huv h.symm)
      have h0 := hall p0 (by simp)
      have h1 := hall p1 (by simp)
      have hx' := hall x (by simp [hx])
      have e1 : vcross (vsub v u) (vsub p1 p0) = 0 := by
        have e : vcross (vsub v u) (vsub p1 p0) =
            vcross (vsub v u) (vsub p1 u) - vcross (vsub v u) (vsub p0 u) := by
          simp only [vcross, vsub]
          ring
        rw [e, h1, h0]
        ring
      have e2 : vcross (vsub v u) (vsub x p0) = 0 := by
        have e : vcross (vsub v u) (vsub x p0) =
            vcross (vsub v u) (vsub x u) - vcross (vsub v u) (vsub p0 u) := by
          simp only [vcross, vsub]
          ring
        rw [e, hx', h0]
        ring
      rw [crossProduct_eq_vcross]
      exact collinear_transfer (vsub v u) hd _ _ e1 e2

/-- Conversely, a successful `areCollinear` check puts every point on the
line through the first two points. -/
theorem areCollinear_line (p0 p1 : Point) (rest : List Point)
    (h : areCollinear (p0 :: p1 :: rest) = true) :
    ∀ x ∈ p0 :: p1 :: rest, vcross (vsub p1 p0) (vsub x p0) = 0 := by
  rw [areCollinear_cons_iff] at h
  intro x hx
  rcases List.mem_cons.mp hx with rfl | hx'
  · have h0 : vsub x x = (⟨0, 0⟩ : Point) := by simp [vsub]
    rw [h0, vcross_zero_right]
  · rcases List.mem_cons.mp hx' with rfl | hx''
    · simp only [vcross]
      ring
    · have := h x hx''
      rw [crossProduct_eq_vcross] at this
      exact this

theorem startIndexOf_strict (pts : List Point) (h0 : 0 < pts.length) :
    ∀ q ∈ pts, q ≠ pget pts (startIndexOf pts) →
      (pget pts (startIndexOf pts)).y < q.y ∨
        ((pget pts (startIndexOf pts)).y = q.y ∧ (pget pts (startIndexOf pts)).x < q.x) := by
  intro q hq hne
  rcases startIndexOf_min pts h0 q hq with h | ⟨hy, hx⟩
  · exact Or.inl h
  · rcases lt_or_eq_of_le hx with h | h
    · exact Or.inr ⟨hy, h⟩
    · exact absurd (by ext <;> omega) hne

theorem exists_ne_mem (pts : List Point) (hnd : pts.Nodup) (h2 : 2 ≤ pts.length)
    (b : Point) : ∃ p ∈ pts, p ≠ b := by
  have h01 : pget pts 0 ≠ pget pts 1 := by
    intro h
    have := pget_inj pts hnd 0 1 (by omega) (by omega) h
    omega
  by_cases h : pget pts 0 = b
  · exact ⟨pget pts 1, pget_mem pts 1 (by omega), by rw [← h]; exact fun hc => h01 hc.symm⟩
  · exact ⟨pget pts 0, pget_mem pts 0 (by omega), h⟩

theorem seesAll_self_absurd (σ : Int) (b : Point) (pts : List Point)
    (hnd : pts.Nodup) (h2 : 2 ≤ pts.length) (hsee : seesAll σ b b pts) : False := by
  obtain ⟨p, hp, hpb⟩ := exists_ne_mem pts hnd h2 b
  apply hsee p hp
  have h0 : vsub b b = (⟨0, 0⟩ : Point) := by simp [vsub]
  simp only [beats]
  refine Or.inr ⟨by rw [h0, vcross_zero_left], ?_⟩
  rw [dist_vsub b b, h0, dist_vsub b p]
  have h1 : vdot (⟨0, 0⟩ : Point) ⟨0, 0⟩ = 0 := by simp [vdot]
  rw [h1]
  exact vdot_self_pos _ (vsub_ne_zero p b hpb)

theorem headq_append_left (l1 l2 : List Point) (h : l1 ≠ []) :
    (l1 ++ l2).head? = l1.head? := by
  cases l1 with
  | nil => exact absurd rfl h
  | cons a t => rfl

/-- Main invariant induction along the wrapping loop: starting from a
partial hull that forms a selection chain from the start vertex, the loop
returns an extension of it that is still a duplicate-free chain of input
points and whose last vertex's certificate points back at the start. -/
theorem run1 (σ : Int) (hσ : σ = 1 ∨ σ = -1) (pts : List Point) (hnd : pts.Nodup)
    (sel : List Point → Nat → Nat) (hsel : selSpec σ sel pts) (start : Nat)
    (hstart : start < pts.length)
    (hb0 : goodCur σ pts (pget pts start)) :
    ∀ (fuel cur : Nat) (hull : List Point),
      1 ≤ fuel → pts.length ≤ hull.length + fuel → cur < pts.length →
      (hull ++ [pget pts cur]).Nodup →
      (hull ++ [pget pts cur]).head? = some (pget pts start) →
      Chain σ pts (hull ++ [pget pts cur]) →
      (∀ x ∈ hull ++ [pget pts cur], x ∈ pts) →
      ∃ t lastv,
        wrapLoop pts sel start fuel cur hull = (hull ++ [pget pts cur]) ++ t ∧
        (wrapLoop pts sel start fuel cur hull).Nodup ∧
        (wrapLoop pts sel start fuel cur hull).head? = some (pget pts start) ∧
        Chain σ pts (wrapLoop pts sel start fuel cur hull) ∧
        (∀ x ∈ wrapLoop pts sel start fuel cur hull, x ∈ pts) ∧
        (wrapLoop pts sel start fuel cur hull).getLast? = some lastv ∧
        seesAll σ lastv (pget pts start) pts := by
  intro fuel
  induction fuel with
  | zero => intro cur hull h1; exact absurd h1 (by omega)
  | succ f ih =>
    intro cur hull _ hfuel hcur hndH hheadH hchH hsubH
    have hcurmem : pget pts cur ∈ hull ++ [pget pts cur] := by simp
    have hgoodcur : goodCur σ pts (pget pts cur) :=
      chain_goodCur σ hσ pts _ hchH hndH _ hheadH hb0 _ hcurmem
    obtain ⟨hnlt, hnne, hnsees⟩ := hsel cur hcur hgoodcur
    have hchainlast : (hull ++ [pget pts cur]).getLast? = some (pget pts cur) :=
      List.getLast?_concat _
    have hznotin : sel pts cur ≠ start →
        pget pts (sel pts cur) ∉ hull ++ [pget pts cur] := by
      intro hnstart hzin
      have hzhead : (hull ++ [pget pts cur]).head? ≠ some (pget pts (sel pts cur)) := by
        rw [hheadH]
        intro h
        rw [Option.some.injEq] at h
        exact hnstart (pget_inj pts hnd _ _ hstart hnlt h).symm
      obtain ⟨a, haH, hane, hasee, halast⟩ := chain_pred σ pts _ hchH hndH _ hzin hzhead
      have hanec : a ≠ pget pts cur := by
        intro h
        apply halast
        rw [hchainlast, h]
      have hamem : a ∈ pts := hsubH a haH
      have hcmem : pget pts cur ∈ pts := pget_mem pts cur hcur
      have hzmem : pget pts (sel pts cur) ∈ pts := pget_mem pts _ hnlt
      have hgooda : goodCur σ pts a :=
        chain_goodCur σ hσ pts _ hchH hndH _ hheadH hb0 a haH
      exact no_two_preds σ hσ a (pget pts cur) (pget pts (sel pts cur))
        (hgooda.2 (pget pts cur) hcmem (pget pts (sel pts cur)) hzmem)
        (hgoodcur.2 a hamem (pget pts (sel pts cur)) hzmem)
        (hasee (pget pts cur) hcmem)
        (hnsees a hamem)
        hanec
    simp only [wrapLoop]
    by_cases hcond : sel pts cur ≠ start ∧ (hull ++ [pget pts cur]).length < pts.length
    · rw [if_pos hcond]
      obtain ⟨hnstart, hlenlt⟩ := hcond
      have hlen' : hull.length + 1 < pts.length := by simpa using hlenlt
      have hznotin' := hznotin hnstart
      have hndH' : ((hull ++ [pget pts cur]) ++ [pget pts (sel pts cur)]).Nodup := by
        rw [List.nodup_append]
        refine ⟨hndH, List.nodup_singleton _, ?_⟩
        intro a ha hb
        rw [List.mem_singleton] at hb
        exact hznotin' (hb ▸ ha)
      have hheadH' :
          ((hull ++ [pget pts cur]) ++ [pget pts (sel pts cur)]).head? =
            some (pget pts start) := by
        rw [headq_append_left _ _ (by simp)]
        exact hheadH
      have hchH' : Chain σ pts ((hull ++ [pget pts cur]) ++ [pget pts (sel pts cur)]) :=
        chain_append_one σ pts _ _ _ hchH hchainlast hnsees
      have hsubH' : ∀ x ∈ (hull ++ [pget pts cur]) ++ [pget pts (sel pts cur)], x ∈ pts := by
        intro x hx
        rcases List.mem_append.mp hx with hx | hx
        · exact hsubH x hx
        · rw [List.mem_singleton] at hx
          rw [hx]
          exact pget_mem pts _ hnlt
      obtain ⟨t, lastv, heq, hp1, hp2, hp3, hp4, hp5, hp6⟩ :=
        ih (sel pts cur) (hull ++ [pget pts cur]) (by omega)
          (by rw [List.length_append, List.length_singleton]; omega)
          hnlt hndH' hheadH' hchH' hsubH'
      refine ⟨[pget pts (sel pts cur)] ++ t, lastv, ?_, hp1, hp2, hp3, hp4, hp5, hp6⟩
      rw [heq, List.append_assoc]
    · rw [if_neg hcond]
      refine ⟨[], pget pts cur, by rw [List.append_nil], hndH, hheadH, hchH, hsubH,
        hchainlast, ?_⟩
      by_cases hns : sel pts cur = start
      · rw [← hns]
        exact hnsees
      · exfalso
        rw [not_and_or] at hcond
        rcases hcond with h | h
        · exact h hns
        · push_neg at h
          have hsubperm := List.Nodup.subperm hndH (fun x hx => hsubH x hx)
          have hperm := hsubperm.perm_of_length_le h
          have hzin : pget pts (sel pts cur) ∈ hull ++ [pget pts cur] :=
            hperm.mem_iff.mpr (pget_mem pts _ hnlt)
          exact hznotin hns hzin

theorem headq_eq_pget (l : List Point) (h : l ≠ []) : l.head? = some (pget l 0) := by
  cases l with
  | nil => exact absurd rfl h
  | cons a t => rfl

theorem getLastq_eq_pget (l : List Point) (h : 0 < l.length) :
    l.getLast? = some (pget l (l.length - 1)) := by
  have hne : l ≠ [] := by
    intro hc
    rw [hc] at h
    simp at h
  rw [List.getLast?_eq_getLast l hne, List.getLast_eq_getElem, pget,
    List.getD_eq_getElem l ⟨0, 0⟩ (by omega)]

/-- A chain that closes back on its start vertex cannot have fewer than
three vertices when the input is duplicate-free and non-collinear. -/
theorem hull_min3 (σ : Int) (hσ : σ = 1 ∨ σ = -1) (pts : List Point) (hnd : pts.Nodup)
    (h3 : 3 ≤ pts.length) (hncol : areCollinear pts = false)
    (R : List Point) (b0 lastv : Point)
    (hndR : R.Nodup) (hhead : R.head? = some b0) (hch : Chain σ pts R)
    (hlast : R.getLast? = some lastv)
    (hclose : seesAll σ lastv b0 pts) : 3 ≤ R.length := by
  have hRne : R ≠ [] := by
    intro h
    rw [h] at hhead
    simp at hhead
  have hRpos : 0 < R.length := List.length_pos.mpr hRne
  by_contra hlt
  push_neg at hlt
  have hb : pget R 0 = b0 := by
    have h := headq_eq_pget R hRne
    rw [h] at hhead
    exact Option.some.inj hhead
  have hl : pget R (R.length - 1) = lastv := by
    have h := getLastq_eq_pget R hRpos
    rw [h] at hlast
    exact Option.some.inj hlast
  have hcase : R.length = 1 ∨ R.length = 2 := by omega
  rcases hcase with h1 | h2
  · have hl0 : pget R 0 = lastv := by
      rw [h1] at hl
      simpa using hl
    have heq : lastv = b0 := by rw [← hl0, hb]
    exact seesAll_self_absurd σ b0 pts hnd (by omega) (heq ▸ hclose)
  · have hl0 : pget R 1 = lastv := by
      rw [h2] at hl
      simpa using hl
    have hedge : seesAll σ (pget R 0) (pget R 1) pts :=
      chain_getElem σ pts R hch 0 (by omega)
    have hbw : pget R 0 ≠ pget R 1 := by
      intro h
      have := pget_inj R hndR 0 1 (by omega) (by omega) h
      omega
    have hline : ∀ x ∈ pts, vcross (vsub (pget R 1) (pget R 0)) (vsub x (pget R 0)) = 0 := by
      intro x hx
      have hforward := (not_beats_iff σ (pget R 0) x (pget R 1)).mp (hedge x hx)
      have hcl := hclose x hx
      rw [← hl0, ← hb] at hcl
      have hbackward := (not_beats_iff σ (pget R 1) x (pget R 0)).mp hcl
      have h1' := hforward.1
      have h2' := hbackward.1
      have hshift := vcross_base_shift (pget R 1) (pget R 0) x
      rw [← hshift] at h2'
      have hneg : vcross (vsub (pget R 0) (pget R 1)) (vsub x (pget R 0)) =
          -vcross (vsub (pget R 1) (pget R 0)) (vsub x (pget R 0)) := by
        simp only [vcross, vsub]
        ring
      rw [hneg] at h2'
      rcases hσ with rfl | rfl <;> omega
    have hcol := all_on_line_areCollinear pts (pget R 0) (pget R 1) hbw hline
    rw [hncol] at hcol
    exact Bool.false_ne_true hcol

/-- The chain produced by the wrapping loop passes its own collinearity
check negatively: its first three vertices form a genuine triangle. -/
theorem hull_noncollinear (σ : Int) (hσ : σ = 1 ∨ σ = -1) (pts : List Point)
    (R : List Point) (b0 : Point)
    (hndR : R.Nodup) (hhead : R.head? = some b0) (hch : Chain σ pts R)
    (hsub : ∀ x ∈ R, x ∈ pts) (hb0 : goodCur σ pts b0)
    (hlen3 : 3 ≤ R.length) : areCollinear R = false := by
  by_contra h
  have htrue : areCollinear R = true := by
    revert h
    cases areCollinear R <;> simp
  match R, hndR, hhead, hch, hsub, hlen3, htrue with
  | r0 :: r1 :: r2 :: rest', hndR, hhead, hch, hsub, hlen3, htrue =>
  rcases List.nodup_cons.mp hndR with ⟨h0notin, hnd1⟩
  rcases List.nodup_cons.mp hnd1 with ⟨h1notin, hnd2⟩
  have h01 : r0 ≠ r1 := by
    intro h'
    apply h0notin
    rw [h']
    exact List.mem_cons_self _ _
  have h02 : r0 ≠ r2 := by
    intro h'
    apply h0notin
    rw [h']
    exact List.mem_cons_of_mem _ (List.mem_cons_self _ _)
  have h12 : r1 ≠ r2 := by
    intro h'
    apply h1notin
    rw [h']
    exact List.mem_cons_self _ _
  have hlineR := areCollinear_line r0 r1 (r2 :: rest') htrue
  have c01 : vcross (vsub r1 r0) (vsub r2 r0) = 0 :=
    hlineR r2 (by simp)
  have c10 : vcross (vsub r0 r1) (vsub r2 r1) = 0 := by
    have e : vcross (vsub r0 r1) (vsub r2 r1) =
        -vcross (vsub r1 r0) (vsub r2 r0) := by
      simp only [vcross, vsub]
      ring
    rw [e, c01]
    ring
  have c20 : vcross (vsub r0 r2) (vsub r1 r2) = 0 := by
    have e : vcross (vsub r0 r2) (vsub r1 r2) =
        vcross (vsub r1 r0) (vsub r2 r0) := by
      simp only [vcross, vsub]
      ring
    rw [e, c01]
  have hg0 : goodCur σ pts r0 :=
    chain_goodCur σ hσ pts _ hch hndR _ hhead hb0 r0 (by simp)
  have hg1 : goodCur σ pts r1 :=
    chain_goodCur σ hσ pts _ hch hndR _ hhead hb0 r1 (by simp)
  have hg2 : goodCur σ pts r2 :=
    chain_goodCur σ hσ pts _ hch hndR _ hhead hb0 r2 (by simp)
  have hm0 : r0 ∈ pts := hsub r0 (by simp)
  have hm1 : r1 ∈ pts := hsub r1 (by simp)
  have hm2 : r2 ∈ pts := hsub r2 (by simp)
  have d0 : 0 ≤ vdot (vsub r1 r0) (vsub r2 r0) := hg0.2 r1 hm1 r2 hm2 c01
  have d1 : 0 ≤ vdot (vsub r0 r1) (vsub r2 r1) := hg1.2 r0 hm0 r2 hm2 c10
  have d2 : 0 ≤ vdot (vsub r0 r2) (vsub r1 r2) := hg2.2 r0 hm0 r1 hm1 c20
  have p0 : 0 < vdot (vsub r1 r0) (vsub r2 r0) :=
    collinear_dot_pos _ _ (vsub_ne_zero r1 r0 (fun h' => h01 h'.symm))
      (vsub_ne_zero r2 r0 (fun h' => h02 h'.symm)) c01 d0
  have p1 : 0 < vdot (vsub r0 r1) (vsub r2 r1) :=
    collinear_dot_pos _ _ (vsub_ne_zero r0 r1 h01)
      (vsub_ne_zero r2 r1 (fun h' => h12 h'.symm)) c10 d1
  have p2 : 0 < vdot (vsub r0 r2) (vsub r1 r2) :=
    collinear_dot_pos _ _ (vsub_ne_zero r0 r2 h02)
      (vsub_ne_zero r1 r2 h12) c20 d2
  have e1 : vdot (vsub r0 r1) (vsub r2 r1) =
      vdot (vsub r1 r0) (vsub r1 r0) - vdot (vsub r1 r0) (vsub r2 r0) := by
    simp only [vdot, vsub]
    ring
  have e2 : vdot (vsub r0 r2) (vsub r1 r2) =
      vdot (vsub r2 r0) (vsub r2 r0) - vdot (vsub r1 r0) (vsub r2 r0) := by
    simp only [vdot, vsub]
    ring
  rw [e1] at p1
  rw [e2] at p2
  have hlag := lagrange (vsub r1 r0) (vsub r2 r0)
  rw [c01] at hlag
  norm_num at hlag
  nlinarith [mul_pos p1 p2, p0, hlag]

/-- If the point at index `0` is the strict lexicographic minimum, the
start-selection scan keeps index `0`. -/
theorem startIndexOf_eq_zero (h : List Point)
    (hstrict : ∀ i, i < h.length → i ≠ 0 →
      (pget h 0).y < (pget h i).y ∨
        ((pget h 0).y = (pget h i).y ∧ (pget h 0).x < (pget h i).x)) :
    startIndexOf h = 0 := by
  rw [startIndexOf]
  have key : ∀ L : List Nat, (∀ i ∈ L, i < h.length ∧ i ≠ 0) →
      L.foldl (startStep h) 0 = 0 := by
    intro L
    induction L with
    | nil => intro _; rfl
    | cons a t ih =>
      intro hall
      rw [List.foldl_cons]
      obtain ⟨halt, hane⟩ := hall a (List.mem_cons_self _ _)
      have hstep : startStep h 0 a = 0 := by
        rcases startStep_cases h 0 a with ⟨heq, hcond⟩ | ⟨heq, hcond⟩
        · exfalso
          rcases hstrict a halt hane with hlt | ⟨hy, hx⟩ <;>
            rcases hcond with h' | ⟨h'y, h'x⟩ <;> omega
        · exact heq
      rw [hstep]
      exact ih (fun i hi => hall i (List.mem_cons_of_mem _ hi))
  apply key
  intro i hi
  have := List.mem_range'_1.mp hi
  omega

/-- Re-running the wrapping loop on a hull whose cyclically consecutive
vertices carry selection certificates reproduces the hull verbatim. -/
theorem run2_loop (σ : Int) (hσ : σ = 1 ∨ σ = -1) (pts h : List Point)
    (hndh : h.Nodup) (h3 : 3 ≤ h.length) (hsub : ∀ x ∈ h, x ∈ pts)
    (hgood : ∀ z ∈ h, goodCur σ pts z)
    (hedges : ∀ j, j < h.length →
      seesAll σ (pget h j) (pget h ((j + 1) % h.length)) pts)
    (sel : List Point → Nat → Nat) (hselh : selSpec σ sel h) :
    ∀ (f j : Nat), j < h.length → f = h.length - j →
      wrapLoop h sel 0 f j (h.take j) = h := by
  intro f
  induction f with
  | zero => intro j hj hf; exact absurd hf (by omega)
  | succ f ih =>
    intro j hj hf
    have hjmem : pget h j ∈ h := pget_mem h j hj
    have hgoodj : goodCur σ h (pget h j) := goodCur_mono σ pts h hsub _ (hgood _ hjmem)
    obtain ⟨hslt, hsne, hssees⟩ := hselh j hj hgoodj
    have htlt : (j + 1) % h.length < h.length := Nat.mod_lt _ (by omega)
    have hdet : sel h j = (j + 1) % h.length := by
      have hamem : pget h (sel h j) ∈ pts := hsub _ (pget_mem h _ hslt)
      have hbmemh : pget h ((j + 1) % h.length) ∈ h := pget_mem h _ htlt
      have hbmem : pget h ((j + 1) % h.length) ∈ pts := hsub _ hbmemh
      have hgpts : goodCur σ pts (pget h j) := hgood _ hjmem
      have heq := unbeaten_eq σ hσ (pget h j) (pget h (sel h j))
        (pget h ((j + 1) % h.length))
        (hgpts.2 _ hamem _ hbmem)
        (hedges j hj _ hamem)
        (hssees _ hbmemh)
      exact pget_inj h hndh _ _ hslt htlt heq
    have htake : h.take j ++ [pget h j] = h.take (j + 1) := by
      rw [pget, List.getD_eq_getElem h ⟨0, 0⟩ hj, ← List.concat_eq_append]
      exact List.take_concat_get h j hj
    simp only [wrapLoop]
    by_cases hj1 : j + 1 < h.length
    · have hmod : (j + 1) % h.length = j + 1 := Nat.mod_eq_of_lt hj1
      have hcond : sel h j ≠ 0 ∧ (h.take j ++ [pget h j]).length < h.length := by
        constructor
        · rw [hdet, hmod]
          omega
        · rw [List.length_append, List.length_take, List.length_singleton]
          omega
      rw [if_pos hcond, htake, hdet, hmod]
      exact ih (j + 1) hj1 (by omega)
    · have hlen : j + 1 = h.length := by omega
      have hmod0 : (j + 1) % h.length = 0 := by
        rw [hlen]
        exact Nat.mod_self _
      rw [if_neg]
      · rw [htake, hlen]
        exact List.take_length h
      · intro hc
        obtain ⟨hc1, hc2⟩ := hc
        rw [hdet, hmod0] at hc1
        exact hc1 rfl

/-- Full single-orientation idempotence package: the wrapping loop's output
is a duplicate-free non-collinear polygon that starts at its own
lexicographic minimum, and running the loop on it reproduces it. -/
theorem wrap_self (σ : Int) (hσ : σ = 1 ∨ σ = -1) (pts : List Point)
    (hnd : pts.Nodup) (h3 : 3 ≤ pts.length) (hncol : areCollinear pts = false)
    (sel : List Point → Nat → Nat)
    (hsel : ∀ S : List Point, 2 ≤ S.length → selSpec σ sel S) :
    ∀ R, R = wrapLoop pts sel (startIndexOf pts) pts.length (startIndexOf pts) [] →
      R.Nodup ∧ 3 ≤ R.length ∧ areCollinear R = false ∧
        startIndexOf R = 0 ∧ wrapLoop R sel 0 R.length 0 [] = R := by
  intro R hR
  have hstart := startIndexOf_lt pts (by omega)
  have hb0 : goodCur σ pts (pget pts (startIndexOf pts)) :=
    goodCur_base σ hσ pts _ (startIndexOf_min pts (by omega))
  obtain ⟨t, lastv, heq, hRnd, hRhead, hRch, hRsub, hRlast, hRsee⟩ :=
    run1 σ hσ pts hnd sel (hsel pts (by omega)) (startIndexOf pts) hstart hb0
      pts.length (startIndexOf pts) [] (by omega) (by simp) hstart
      (by simp) rfl trivial
      (by
        intro x hx
        simp only [List.nil_append, List.mem_singleton] at hx
        rw [hx]
        exact pget_mem pts _ hstart)
  rw [← hR] at hRnd hRhead hRch hRsub hRlast
  have hlen3 : 3 ≤ R.length :=
    hull_min3 σ hσ pts hnd h3 hncol R _ _ hRnd hRhead hRch hRlast hRsee
  have hRcol : areCollinear R = false :=
    hull_noncollinear σ hσ pts R _ hRnd hRhead hRch hRsub hb0 hlen3
  have hRne : R ≠ [] := by
    intro hc
    rw [hc] at hlen3
    simp at hlen3
  have hR0 : pget R 0 = pget pts (startIndexOf pts) := by
    have hh := headq_eq_pget R hRne
    rw [hh] at hRhead
    exact Option.some.inj hRhead
  have hRlastv : pget R (R.length - 1) = lastv := by
    have hgl := getLastq_eq_pget R (by omega)
    rw [hgl] at hRlast
    exact Option.some.inj hRlast
  have hedges : ∀ j, j < R.length →
      seesAll σ (pget R j) (pget R ((j + 1) % R.length)) pts := by
    intro j hjK
    by_cases hj1 : j + 1 < R.length
    · rw [Nat.mod_eq_of_lt hj1]
      exact chain_getElem σ pts R hRch j hj1
    · have hmod : (j + 1) % R.length = 0 := by
        have hjl : j + 1 = R.length := by omega
        rw [hjl]
        exact Nat.mod_self _
      have hjlast : j = R.length - 1 := by omega
      rw [hmod, hjlast, hRlastv, hR0]
      exact hRsee
  have hgood : ∀ z ∈ R, goodCur σ pts z :=
    chain_goodCur σ hσ pts R hRch hRnd _ hRhead hb0
  have hs0 : startIndexOf R = 0 := by
    apply startIndexOf_eq_zero
    intro i hi hine
    have hmemi : pget R i ∈ pts := hRsub _ (pget_mem R i hi)
    have hnei : pget R i ≠ pget pts (startIndexOf pts) := by
      rw [← hR0]
      intro h'
      exact hine (pget_inj R hRnd i 0 hi (by omega) h')
    have hstrict := startIndexOf_strict pts (by omega) (pget R i) hmemi hnei
    rw [← hR0] at hstrict
    exact hstrict
  have hrun2 := run2_loop σ hσ pts R hRnd hlen3 hRsub hgood hedges sel
    (hsel R (by omega)) R.length 0 (by omega) (by omega)
  rw [List.take_zero] at hrun2
  exact ⟨hRnd, hlen3, hRcol, hs0, hrun2⟩

theorem removeDuplicates_foldl_of_nodup :
    ∀ (l acc : List Point), (acc ++ l).Nodup →
      l.foldl
        (fun unique p =>
          if unique.any (fun u => pointsEqual u p) then unique else unique ++ [p])
        acc = acc ++ l := by
  intro l
  induction l with
  | nil => intro acc h; simp
  | cons p t ih =>
    intro acc h
    rw [List.foldl_cons]
    have hpnotin : p ∉ acc := by
      intro hp
      exact (List.disjoint_of_nodup_append h) hp (List.mem_cons_self _ _)
    have hpnot : acc.any (fun u => pointsEqual u p) = false := by
      rw [List.any_eq_false]
      intro u hu hc
      rw [pointsEqual_iff] at hc
      exact hpnotin (hc ▸ hu)
    rw [hpnot, if_neg (by simp)]
    have h' : ((acc ++ [p]) ++ t).Nodup := by
      rw [List.append_assoc]
      simpa using h
    rw [ih (acc ++ [p]) h']
    simp

theorem removeDuplicates_of_nodup (l : List Point) (hnd : l.Nodup) :
    removeDuplicates l = l := by
  rw [removeDuplicates]
  have h := removeDuplicates_foldl_of_nodup l [] (by simpa using hnd)
  simpa using h

/-- On a two-point list already in lexicographic order, the farthest-pair
scan returns the list unchanged. -/
theorem getSegmentEndpoints_pair (a b : Point)
    (hlex : a.y < b.y ∨ (a.y = b.y ∧ a.x < b.x)) :
    getSegmentEndpoints [a, b] = [a, b] := by
  have hd : -1 < distanceSquared a b := by
    have := distanceSquared_nonneg a b
    omega
  have hall : allPairs [a, b] = [(a, b)] := by
    simp [allPairs]
  simp only [getSegmentEndpoints, hall, List.foldl_cons, List.foldl_nil, segStep]
  rw [if_pos hd]
  rcases hlex with h | ⟨h1, h2⟩
  · simp [h]
  · simp [h1, h2]

/-- `giftWrap` is idempotent on duplicate-free non-collinear inputs, and
its output is itself duplicate-free, non-collinear, of length at least
three. -/
theorem giftWrap_self (pts : List Point) (hnd : pts.Nodup) (h3 : 3 ≤ pts.length)
    (hncol : areCollinear pts = false) :
    (giftWrap pts).Nodup ∧ 3 ≤ (giftWrap pts).length ∧
      areCollinear (giftWrap pts) = false ∧ giftWrap (giftWrap pts) = giftWrap pts := by
  have hgw : giftWrap pts =
      wrapLoop pts gwSelect (startIndexOf pts) pts.length (startIndexOf pts) [] := by
    rw [giftWrap, if_neg (by omega)]
  obtain ⟨hRnd, hlen3, hRcol, hs0, hrun2⟩ :=
    wrap_self 1 (Or.inl rfl) pts hnd h3 hncol gwSelect
      (fun S hS => gwSelect_selSpec S hS) (giftWrap pts) hgw
  refine ⟨hRnd, hlen3, hRcol, ?_⟩
  generalize hq : giftWrap pts = q at hlen3 hs0 hrun2
  rw [giftWrap, if_neg (by omega), hs0]
  exact hrun2

/-- `jarvisMarch` is idempotent on duplicate-free non-collinear inputs,
with the same structural guarantees as `giftWrap`. -/
theorem jarvisMarch_self (pts : List Point) (hnd : pts.Nodup) (h3 : 3 ≤ pts.length)
    (hncol : areCollinear pts = false) :
    (jarvisMarch pts).Nodup ∧ 3 ≤ (jarvisMarch pts).length ∧
      areCollinear (jarvisMarch pts) = false ∧
      jarvisMarch (jarvisMarch pts) = jarvisMarch pts := by
  have hjm : jarvisMarch pts =
      wrapLoop pts jmSelect (startIndexOf pts) pts.length (startIndexOf pts) [] := by
    rw [jarvisMarch, if_neg (by omega)]
  obtain ⟨hRnd, hlen3, hRcol, hs0, hrun2⟩ :=
    wrap_self (-1) (Or.inr rfl) pts hnd h3 hncol jmSelect
      (fun S hS => jmSelect_selSpec S hS) (jarvisMarch pts) hjm
  refine ⟨hRnd, hlen3, hRcol, ?_⟩
  generalize hq : jarvisMarch pts = q at hlen3 hs0 hrun2
  rw [jarvisMarch, if_neg (by omega), hs0]
  exact hrun2

/-- Idempotence of both orchestrator versions on the segment branch: the
two reported endpoints are distinct and already in lexicographic order, so
re-hulling them reproduces the same segment. -/
theorem segment_idem (points : List Point)
    (harg : (removeDuplicates points).length = 2 ∨
      (3 ≤ (removeDuplicates points).length ∧
        areCollinear (removeDuplicates points) = true)) :
    convexHull (convexHull points).vertices = convexHull points ∧
    convexHullJM (convexHullJM points).vertices = convexHullJM points := by
  obtain ⟨hres1, hres2⟩ := convexHull_segment_branch points harg
  have hnd := nodup_removeDuplicates points
  have hlen2 : 2 ≤ (removeDuplicates points).length := by
    rcases harg with h | ⟨h, -⟩ <;> omega
  obtain ⟨a, b, hE, hma, hmb, hab, hlex, -, -⟩ :=
    getSegmentEndpoints_spec _ hnd hlen2
  have hndE : ([a, b] : List Point).Nodup := by simp [hab]
  have hrdE : removeDuplicates [a, b] = [a, b] := removeDuplicates_of_nodup _ hndE
  have hlenE : (removeDuplicates [a, b]).length = 2 := by rw [hrdE]; rfl
  obtain ⟨hE1, hE2⟩ := convexHull_segment_branch [a, b] (Or.inl hlenE)
  constructor
  · rw [hres1, hE]
    show convexHull [a, b] = (⟨HullType.segment, [a, b]⟩ : HullResult)
    rw [hE1, hrdE, getSegmentEndpoints_pair a b hlex]
  · rw [hres2, hE]
    show convexHullJM [a, b] = (⟨HullType.segment, [a, b]⟩ : HullResult)
    rw [hE2, hrdE, getSegmentEndpoints_pair a b hlex]

theorem convexHull_idem (points : List Point) :
    convexHull (convexHull points).vertices = convexHull points := by
  have hnd := nodup_removeDuplicates points
  by_cases h0 : (removeDuplicates points).length = 0
  · have hres : convexHull points = ⟨HullType.point, []⟩ := by simp [convexHull, h0]
    rw [hres]
    rfl
  · by_cases h1 : (removeDuplicates points).length = 1
    · have hres : convexHull points = ⟨HullType.point, removeDuplicates points⟩ := by
        simp [convexHull, h0, h1]
      rw [hres]
      have hrd : removeDuplicates (removeDuplicates points) = removeDuplicates points :=
        removeDuplicates_of_nodup _ hnd
      show convexHull (removeDuplicates points) = _
      simp [convexHull, hrd, h1]
    · by_cases h2 : (removeDuplicates points).length = 2
      · exact (segment_idem points (Or.inl h2)).1
      · by_cases hcol : areCollinear (removeDuplicates points) = true
        · exact (segment_idem points (Or.inr ⟨by omega, hcol⟩)).1
        · have h3 : 3 ≤ (removeDuplicates points).length := by omega
          have hcolf : areCollinear (removeDuplicates points) = false := by
            revert hcol
            cases areCollinear (removeDuplicates points) <;> simp
          obtain ⟨hhnd, hh3, hhcol, hgw⟩ :=
            giftWrap_self (removeDuplicates points) hnd h3 hcolf
          have hres : convexHull points =
              ⟨getHullType (giftWrap (removeDuplicates points)).length,
                giftWrap (removeDuplicates points)⟩ := by
            simp [convexHull, h0, h1, h2, hcolf]
          rw [hres]
          show convexHull (giftWrap (removeDuplicates points)) = _
          have hrdh : removeDuplicates (giftWrap (removeDuplicates points)) =
              giftWrap (removeDuplicates points) :=
            removeDuplicates_of_nodup _ hhnd
          have k0 : ¬(giftWrap (removeDuplicates points)).length = 0 := by omega
          have k1 : ¬(giftWrap (removeDuplicates points)).length = 1 := by omega
          have k2 : ¬(giftWrap (removeDuplicates points)).length = 2 := by omega
          simp [convexHull, hrdh, k0, k1, k2, hhcol, hgw]

theorem convexHullJM_idem (points : List Point) :
    convexHullJM (convexHullJM points).vertices = convexHullJM points := by
  have hnd := nodup_removeDuplicates points
  by_cases h0 : (removeDuplicates points).length = 0
  · have hres : convexHullJM points = ⟨HullType.point, []⟩ := by
      simp [convexHullJM, h0]
    rw [hres]
    rfl
  · by_cases h1 : (removeDuplicates points).length = 1
    · have hres : convexHullJM points = ⟨HullType.point, removeDuplicates points⟩ := by
        simp [convexHullJM, h0, h1]
      rw [hres]
      have hrd : removeDuplicates (removeDuplicates points) = removeDuplicates points :=
        removeDuplicates_of_nodup _ hnd
      show convexHullJM (removeDuplicates points) = _
      simp [convexHullJM, hrd, h1]
    · by_cases h2 : (removeDuplicates points).length = 2
      · exact (segment_idem points (Or.inl h2)).2
      · by_cases hcol : areCollinear (removeDuplicates points) = true
        · exact (segment_idem points (Or.inr ⟨by omega, hcol⟩)).2
        · have h3 : 3 ≤ (removeDuplicates points).length := by omega
          have hcolf : areCollinear (removeDuplicates points) = false := by
            revert hcol
            cases areCollinear (removeDuplicates points) <;> simp
          obtain ⟨hhnd, hh3, hhcol, hjm⟩ :=
            jarvisMarch_self (removeDuplicates points) hnd h3 hcolf
          have hres : convexHullJM points =
              ⟨getHullType (jarvisMarch (removeDuplicates points)).length,
                jarvisMarch (removeDuplicates points)⟩ := by
            simp [convexHullJM, h0, h1, h2, hcolf]
          rw [hres]
          show convexHullJM (jarvisMarch (removeDuplicates points)) = _
          have hrdh : removeDuplicates (jarvisMarch (removeDuplicates points)) =
              jarvisMarch (removeDuplicates points) :=
            removeDuplicates_of_nodup _ hhnd
          have k0 : ¬(jarvisMarch (removeDuplicates points)).length = 0 := by omega
          have k1 : ¬(jarvisMarch (removeDuplicates points)).length = 1 := by omega
          have k2 : ¬(jarvisMarch (removeDuplicates points)).length = 2 := by omega
          simp [convexHullJM, hrdh, k0, k1, k2, hhcol, hjm]

/-! ## Claim C9

Both observed versions of the orchestrator are idempotent: feeding the
vertex list of a result back into the function reproduces the result
exactly, type and vertex sequence included. -/

/-- C9: `convexHull` is idempotent — for every input, applying the
orchestrator to the vertices of `convexHull points` returns a result equal
to `convexHull points` (same type tag and same vertex sequence); this holds
for both concatenated versions of the function (`convexHull` computing via
the local `giftWrap`, `convexHullJM` delegating to `jarvisMarch`). -/
theorem C9_idempotent (points : List Point) :
    convexHull (convexHull points).vertices = convexHull points ∧
    convexHullJM (convexHullJM points).vertices = convexHullJM points :=
  ⟨convexHull_idem points, convexHullJM_idem points⟩

end Hull
